import Mathlib

/-!
Verification development for the family-tree widget (`fam-tree.js`).

The embedding follows the richer of the two copies of the widget shipped in
the repository (`src/unnamed/part_001`); the functions shared with
`src/widgets/fam-tree/fam-tree.js` (`convertExcelDate`, `getBirthDate`,
`loadFromURL`, `getPathToRoot`, `getBreadcrumbPath`, root selection,
children sorting, `performSearch`, `countDescendants`) are textually
identical in both copies.

Modelling conventions:
* JavaScript field values that may be a string, a number or null/undefined
  are embedded as `JSVal`.  Numbers are modelled as exact rationals (IEEE-754
  rounding at extreme magnitudes is not modelled); `String(n)` is only
  exercised on integral values, where JS and the model agree.
* `parseFloat` is modelled for the regular decimal syntax (whitespace, sign,
  digits, fraction, exponent, trailing garbage ignored); the "Infinity"
  literal is not modelled (on every path through `convertExcelDate` the
  output for an Infinity input coincides with the output the model produces).
* `new Date(ms)` stores the ms value truncated toward zero and is invalid
  outside ±8.64e15 ms; `getFullYear`/`getMonth`/`getDate` are computed in
  UTC via the standard civil-from-days conversion.  Since the code only ever
  adds whole-day offsets to the local-midnight epoch `Date(1899, 11, 30)`,
  the extracted calendar date is independent of the time zone, so the UTC
  model is extensionally faithful.
-/

namespace FamTree

/-- A JavaScript value as it appears in a JSON record field: null/undefined,
a number, or a string. -/
inductive JSVal where
  | vnull : JSVal
  | vnum : ℚ → JSVal
  | vstr : String → JSVal
deriving DecidableEq, Repr

/-- JS truthiness for `JSVal` (`undefined`/`null`, `0` and `''` are falsy). -/
def jsTruthy : JSVal → Bool
  | .vnull => false
  | .vnum q => q ≠ 0
  | .vstr s => s ≠ ""

/-- `String(v)` for the values the widget converts (numbers are only ever
integral on the exercised paths; a non-integral rational is rendered as
`num/den`, a model-side placeholder never compared against JS output). -/
def jsToString : JSVal → String
  | .vnull => "null"
  | .vnum q => if q.den = 1 then toString q.num else toString q.num ++ "/" ++ toString q.den
  | .vstr s => s

/-- Decimal digit test on characters (ASCII `0`-`9`). -/
def isDig (c : Char) : Bool := '0' ≤ c && c ≤ '9'

/-- Numeric value of a list of decimal digits, most significant first. -/
def digitsVal (cs : List Char) : ℕ :=
  cs.foldl (fun acc c => 10 * acc + (c.toNat - '0'.toNat)) 0

/-- JS whitespace accepted before a `parseFloat` literal (ASCII subset). -/
def isWS (c : Char) : Bool := c = ' ' || c = '\t' || c = '\n' || c = '\r'

/-- Split an optional leading sign, returning the sign as `1` or `-1`. -/
def splitSign : List Char → ℤ × List Char
  | '+' :: r => (1, r)
  | '-' :: r => (-1, r)
  | cs => (1, cs)

/-- Model of `parseFloat` on a string: optional whitespace and sign, then a
decimal mantissa with optional fraction and exponent; trailing characters are
ignored; `none` models `NaN` (no digits found).  The value
`sign * (intDigits.fracDigits) * 10 ^ expo` is assembled as one exact
fraction through `mkRat` (the `Rat` field operations are `@[irreducible]`,
which would block evaluation inside proofs). -/
def parseFloatQ (s : String) : Option ℚ :=
  let cs := s.toList.dropWhile isWS
  let (sg, cs) := splitSign cs
  let intPart := cs.takeWhile isDig
  let rest := cs.dropWhile isDig
  let (fracPart, rest2) :=
    match rest with
    | '.' :: r => (r.takeWhile isDig, r.dropWhile isDig)
    | _ => ([], rest)
  if intPart = [] ∧ fracPart = [] then none
  else
    let mantNum : ℤ := sg * (digitsVal intPart * 10 ^ fracPart.length + digitsVal fracPart)
    let expo : ℤ :=
      match rest2 with
      | 'e' :: r => let (es, r') := splitSign r
                    let ds := r'.takeWhile isDig
                    if ds = [] then 0 else es * (digitsVal ds : ℤ)
      | 'E' :: r => let (es, r') := splitSign r
                    let ds := r'.takeWhile isDig
                    if ds = [] then 0 else es * (digitsVal ds : ℤ)
      | _ => 0
    if 0 ≤ expo then some (mkRat (mantNum * 10 ^ expo.toNat) (10 ^ fracPart.length))
    else some (mkRat mantNum (10 ^ (fracPart.length + (-expo).toNat)))

/-- `parseFloat` applied to a record field (`parseFloat(null)` is `NaN`). -/
def jsParseFloat : JSVal → Option ℚ
  | .vnull => none
  | .vnum q => some q
  | .vstr s => parseFloatQ s

/-- Truncation toward zero, as the `Date` constructor applies to its ms
argument. -/
def jsTrunc (q : ℚ) : ℤ := if 0 ≤ q then ⌊q⌋ else -⌊-q⌋

/-- Civil (proleptic Gregorian) date from a count of days since 1970-01-01
(Howard Hinnant's `civil_from_days`). -/
def civilFromDays (z0 : ℤ) : ℤ × ℕ × ℕ :=
  let z := z0 + 719468
  let era := Int.fdiv z 146097
  let doe := (z - era * 146097).toNat
  let yoe := (doe - doe / 1460 + doe / 36524 - doe / 146096) / 365
  let doy := doe - (365 * yoe + yoe / 4 - yoe / 100)
  let mp := (5 * doy + 2) / 153
  let d := doy - (153 * mp + 2) / 5 + 1
  let m := if mp < 10 then mp + 3 else mp - 9
  (era * 400 + yoe + (if m ≤ 2 then 1 else 0), m, d)

/-- Days since 1970-01-01 of a civil date (Howard Hinnant's
`days_from_civil`). -/
def daysFromCivil (y0 : ℤ) (m d : ℕ) : ℤ :=
  let y := if m ≤ 2 then y0 - 1 else y0
  let era := Int.fdiv y 400
  let yoe := (y - era * 400).toNat
  let doy := (153 * (if 2 < m then m - 3 else m + 9) + 2) / 5 + d - 1
  let doe := yoe * 365 + yoe / 4 - yoe / 100 + doy
  era * 146097 + (doe : ℤ) - 719468

/-- The Excel epoch used by the widget: `new Date(1899, 11, 30)` as a day
number relative to 1970-01-01. -/
def epochDay : ℤ := daysFromCivil 1899 12 30

/-- `String(n).padStart(2, '0')`. -/
def pad2 (n : ℕ) : String := if n < 10 then "0" ++ toString n else toString n

/-- `${year}-${month}-${day}` formatting of a civil date. -/
def formatYMD : ℤ × ℕ × ℕ → String
  | (y, m, d) => toString y ++ "-" ++ pad2 m ++ "-" ++ pad2 d

/-- Largest representable `Date` time value in ms (`±8.64e15`). -/
def maxDateMs : ℤ := 8640000000000000

/-- The numeric half of `convertExcelDate`, after `parseFloat` succeeded. -/
def convertNum (excelDate : JSVal) (numDate : ℚ) : String :=
  if numDate ≤ 0 then jsToString excelDate
  else if numDate < 10000 then toString ⌊numDate⌋
  else
    -- `daysToAdd` is `numDate` (serial ≥ 60) or `numDate + 1`; the ms
    -- value `epoch.getTime() + daysToAdd * 86400000` is carried as the
    -- exact fraction `msNum / numDate.den` (see `convertExcelDate_ms`),
    -- because the `Rat` field operations are `@[irreducible]`.
    let daysNum : ℤ := if 60 ≤ numDate then numDate.num else numDate.num + numDate.den
    let msNum : ℤ := (epochDay * numDate.den + daysNum) * 86400000
    -- `new Date(ms)` is invalid outside ±8.64e15 ms and truncates the
    -- time value toward zero; the day index is the floor of ms/86400000.
    if maxDateMs * numDate.den < |msNum| then jsToString excelDate
    else formatYMD (civilFromDays (Int.fdiv (msNum.tdiv numDate.den) 86400000))

/-- `FamilyTree.convertExcelDate`: empty for the degenerate inputs, the
input itself (as a string) for non-numeric or non-positive input, the
floored value as a bare year below 10000, and otherwise an Excel serial
day-count converted through the `Date(1899, 11, 30)` epoch, formatted
`YYYY-MM-DD`, falling back to the input string when the resulting `Date`
is invalid. -/
def convertExcelDate (excelDate : JSVal) : String :=
  if ¬ jsTruthy excelDate ∨ excelDate = .vstr "0" then ""
  else (jsParseFloat excelDate).elim (jsToString excelDate) (convertNum excelDate)

/-- One life event attached to a person (`buildTree`, first pass). -/
structure Event where
  type : String
  date : String
  partner : String
  partnerBirthDeath : String
  parent1 : String
  parent2 : String
deriving DecidableEq, Repr

/-- A person entry of the `this.persons` map.  Children hold the ids of the
child persons (in JS they are references into the same map, mutated in
place; since names, events and ids are fixed once the relevant passes read
them, the id-indexed view is equivalent). -/
structure Person where
  id : String
  name : String
  events : List Event
  children : List String
  parentId : Option String
deriving DecidableEq, Repr

/-- One row of `stammbaum.json`.  Free-text fields that the code only reads
through `|| ''` are embedded as plain strings with `""` for absent. -/
structure Record where
  Person : String
  AnchorId : JSVal
  Ereignis : String
  Datum : JSVal
  Partner : String
  PartnerGeburtTod : String
  Eltern1 : String
  Eltern2 : String
  ParentId : JSVal
deriving DecidableEq, Repr

/-- The event object built from a record in the first pass. -/
def mkEvent (r : Record) : Event :=
  { type := r.Ereignis
    date := convertExcelDate r.Datum
    partner := r.Partner
    partnerBirthDeath := r.PartnerGeburtTod
    parent1 := r.Eltern1
    parent2 := r.Eltern2 }

/-- A fresh person entry. -/
def newPerson (id name : String) : Person :=
  { id := id, name := name, events := [], children := [], parentId := none }

/-- `this.persons.get(k)`: the registry is a list in map-insertion order with
unique ids. -/
def lookupP (reg : List Person) (k : String) : Option Person :=
  reg.find? (fun p => p.id = k)

/-- The ids of the registry in insertion order. -/
def idsOf (reg : List Person) : List String := reg.map (·.id)

/-- Replace the person with id `k` (keeping its position), leaving the rest
unchanged. -/
def updatePerson (reg : List Person) (k : String) (f : Person → Person) :
    List Person :=
  reg.map (fun p => if p.id = k then f p else p)

/-- `this.persons.set(k, q)`: overwrite in place when the key exists
(JS `Map` keeps the original insertion position), else append. -/
def setPerson (reg : List Person) (k : String) (q : Person) : List Person :=
  if k ∈ idsOf reg then reg.map (fun p => if p.id = k then q else p)
  else reg ++ [q]

/-- `true` when `t` occurs as a contiguous prefix of `s` (char lists). -/
def isPrefixOfB : List Char → List Char → Bool
  | [], _ => true
  | _ :: _, [] => false
  | a :: as, b :: bs => a = b && isPrefixOfB as bs

/-- `true` when `t` occurs contiguously inside `s` (char lists). -/
def isInfixB : List Char → List Char → Bool
  | t, [] => isPrefixOfB t []
  | t, b :: s => isPrefixOfB t (b :: s) || isInfixB t s

/-- `s.includes(t)` on strings. -/
def strIncludes (s t : String) : Bool := isInfixB t.toList s.toList

/-- The substring test used for parent-name hints: name equals, contains,
or is contained in the hint (`p.name === h || p.name.includes(h) ||
h.includes(p.name)`). -/
def nameMatches (h : String) (p : Person) : Bool :=
  p.name = h || strIncludes p.name h || strIncludes h p.name

/-- First person in registry order matching a parent-name hint. -/
def findParentByName (reg : List Person) (h : String) : Option Person :=
  reg.find? (nameMatches h)

/-- Identity resolution of the first pass: by string-normalised anchor id
when the `AnchorId` field is truthy, else by exact name match, else a new
person keyed (and named) by the record's name, overwriting any same-keyed
entry.  Returns the updated registry and the resolved person's id. -/
def resolveIdentity (reg : List Person) (r : Record) : List Person × String :=
  if jsTruthy r.AnchorId then
    let k := jsToString r.AnchorId
    if k ∈ idsOf reg then (reg, k) else (reg ++ [newPerson k r.Person], k)
  else
    match reg.find? (fun p => p.name = r.Person) with
    | some p => (reg, p.id)
    | none => (setPerson reg r.Person (newPerson r.Person r.Person), r.Person)

/-- Append the record's event to the resolved person. -/
def pushEvent (reg : List Person) (pid : String) (r : Record) : List Person :=
  updatePerson reg pid (fun p => { p with events := p.events ++ [mkEvent r] })

/-- Set the resolved person's `parentId`. -/
def setParentId (reg : List Person) (pid : String) (v : String) : List Person :=
  updatePerson reg pid (fun p => { p with parentId := some v })

/-- One record of the first pass of `buildTree`: skip nameless records,
resolve the identity, accumulate the event, then resolve the parent —
explicit `ParentId` when truthy (the string "0" meaning the root-anchor
person), else the `Eltern1` hint, else the `Eltern2` hint. -/
def ingestStep (reg : List Person) (r : Record) : List Person :=
  if r.Person = "" then reg
  else
    let pr := resolveIdentity reg r
    let reg2 := pushEvent pr.1 pr.2 r
    let pid := pr.2
    if jsTruthy r.ParentId then
      setParentId reg2 pid (jsToString r.ParentId)
    else if r.Eltern1 ≠ "" then
      match findParentByName reg2 r.Eltern1 with
      | some par => setParentId reg2 pid par.id
      | none =>
        if r.Eltern2 ≠ "" then
          match findParentByName reg2 r.Eltern2 with
          | some par => setParentId reg2 pid par.id
          | none => reg2
        else reg2
    else if r.Eltern2 ≠ "" then
      match findParentByName reg2 r.Eltern2 with
      | some par => setParentId reg2 pid par.id
      | none => reg2
    else reg2

/-- First pass of `buildTree` over the whole record list. -/
def pass1 (records : List Record) : List Person :=
  records.foldl ingestStep []

/-- `getBirthDate`'s year extraction: the regex `^(\d{4})` on the stored
date string. -/
def extractYear4 (s : String) : Option ℕ :=
  match s.toList with
  | a :: b :: c :: d :: _ =>
    if isDig a && isDig b && isDig c && isDig d then
      some (digitsVal [a, b, c, d])
    else none
  | _ => none

/-- `FamilyTree.getBirthDate`: the year of the first `Geburt` event whose
date is non-empty, as a number (`none` models the `null` return). -/
def getBirthDate (p : Person) : Option ℕ :=
  match p.events.find? (fun e => e.type = "Geburt") with
  | some e => if e.date ≠ "" then extractYear4 e.date else none
  | none => none

/-- Birth year as the callers consume it: every use site tests the returned
number for truthiness (`if (!aBirth)`), so the year `0` behaves exactly like
the `null` return. -/
def birthT (p : Person) : Option ℕ :=
  match getBirthDate p with
  | some y => if y = 0 then none else some y
  | none => none

/-- `birthT` looked up through a child id. -/
def birthTId (reg : List Person) (cid : String) : Option ℕ :=
  match lookupP reg cid with
  | some p => birthT p
  | none => none

/-- Fallback parent search of the second pass: the first event carrying a
parent hint, tried `parent1` first, then `parent2`. -/
def pass2FindParent (reg : List Person) (person : Person) : Option Person :=
  match person.events.find? (fun e => e.parent1 ≠ "" || e.parent2 ≠ "") with
  | none => none
  | some ev =>
    match (if ev.parent1 ≠ "" then findParentByName reg ev.parent1 else none) with
    | some par => some par
    | none => if ev.parent2 ≠ "" then findParentByName reg ev.parent2 else none

/-- Attach `person` to `par`'s children and point its `parentId` at `par`,
unless it is already among the children. -/
def attachChild (reg : List Person) (person par : Person) : List Person :=
  if person.id ∈ par.children then reg
  else
    updatePerson (updatePerson reg par.id
        (fun q => { q with children := q.children ++ [person.id] }))
      person.id (fun q => { q with parentId := some par.id })

/-- One iteration of the second pass of `buildTree` for the person with
id `k` (reading the evolving registry, as the JS `forEach` does). -/
def pass2Step (reg : List Person) (k : String) : List Person :=
  match lookupP reg k with
  | none => reg
  | some person =>
    match person.parentId with
    | some pid =>
      if pid ≠ "" then
        match lookupP reg pid with
        | some par =>
          updatePerson reg par.id
            (fun q => { q with children := q.children ++ [person.id] })
        | none =>
          match pass2FindParent reg person with
          | some par => attachChild reg person par
          | none => reg
      else
        match pass2FindParent reg person with
        | some par => attachChild reg person par
        | none => reg
    | none =>
      match pass2FindParent reg person with
      | some par => attachChild reg person par
      | none => reg

/-- Second pass of `buildTree`: parent-child linking over all persons in
registry order. -/
def pass2 (reg : List Person) : List Person :=
  (idsOf reg).foldl pass2Step reg

/-- The children-sort comparator (`(a, b) => {...}` in `buildTree`): any
unknown-birth left operand compares greater, an unknown-birth right operand
compares smaller, otherwise the difference of the years. -/
def childCmp (reg : List Person) (a b : String) : ℤ :=
  match birthTId reg a with
  | none => 1
  | some ya =>
    match birthTId reg b with
    | none => -1
    | some yb => (ya : ℤ) - (yb : ℤ)

/-- Insert `x` into `acc` in front of the first element `y` with
`cmp y x > 0` (the insertion step of a stable binary-insertion sort). -/
def insertLE {α : Type} (le : α → α → Bool) (x : α) : List α → List α
  | [] => [x]
  | y :: ys => if le y x then y :: insertLE le x ys else x :: y :: ys

/-- Model of `Array.prototype.sort(cmp)` as a stable insertion sort.  For a
consistent comparator this is the unique stable sorted permutation, which
is exactly what ECMAScript mandates, so the model is faithful there.  For
an inconsistent comparator (as the children comparator is on two
unknown-birth entries) ECMAScript leaves the resulting order
implementation-defined and conforming engines genuinely differ; the model
then merely fixes one admissible outcome, and no theorem reads a definite
order off it in that regime. -/
def jsSort {α : Type} (le : α → α → Bool) (l : List α) : List α :=
  l.foldl (fun acc x => insertLE le x acc) []

/-- `person.children.sort(...)` with the birth-date comparator. -/
def sortChildren (reg : List Person) (kids : List String) : List String :=
  jsSort (fun a b => childCmp reg a b ≤ 0) kids

/-- The child-sorting phase of `buildTree` (events, and hence birth years,
are not modified by it, so sorting against the pre-sort registry is
equivalent to the in-place JS loop). -/
def sortPhase (reg : List Person) : List Person :=
  reg.map (fun p => { p with children := sortChildren reg p.children })

/-- `!p.parentId || p.parentId === ''`: eligible root candidate. -/
def noParentB (p : Person) : Bool :=
  match p.parentId with
  | none => true
  | some s => s = ""

/-- The `reduce` step of the fallback root search: an unknown-birth
accumulator is replaced by the current person, an unknown-birth current
person is skipped, otherwise the earlier birth year wins (ties to the
current person). -/
def earliestStep (earliest current : Person) : Person :=
  match birthT earliest with
  | none => current
  | some ye =>
    match birthT current with
    | none => earliest
    | some yc => if (ye : ℤ) < (yc : ℤ) then earliest else current

/-- Root selection of `buildTree`: the person at id "0" when it has no
resolved parent; else the parentless person chosen by the `reduce`; else
the first person of the registry. -/
def selectRoot (reg : List Person) : Option Person :=
  match lookupP reg "0" with
  | some p0 =>
    if noParentB p0 then some p0
    else
      match reg.filter noParentB with
      | [] => reg.head?
      | c :: cs => some (cs.foldl earliestStep c)
  | none =>
    match reg.filter noParentB with
    | [] => reg.head?
    | c :: cs => some (cs.foldl earliestStep c)

/-- The registry after all of `buildTree`'s construction passes. -/
def famAssemble (records : List Record) : List Person :=
  sortPhase (pass2 (pass1 records))

/-- `FamilyTree.countDescendants`, with explicit fuel: the JS recursion has
no cycle guard, so the model returns `none` when the children graph is
deeper than the fuel (in particular on every fuel for a cyclic graph). -/
def countDFuel : ℕ → List Person → String → Option ℕ
  | 0, _, _ => none
  | fuel + 1, reg, k =>
    match lookupP reg k with
    | none => some 0
    | some p =>
      (p.children.mapM (countDFuel fuel reg)).map
        (fun l => p.children.length + l.sum)

/-- The upward walk shared by `getPathToRoot`, `getBreadcrumbPath` and
`updateBreadcrumb`: follow `parentId` while it is truthy and not the
reserved "0", the parent resolves, and the id has not been visited.  The
returned list is in person-to-ancestor order (the JS `push` order).  `fuel`
bounds the loop; `pathWalk_fuel_stable` shows any fuel beyond the number of
unvisited registry entries is enough.  The parent step is factored out as
`walkNext`: follow `parentId` when it is truthy and not the reserved "0",
and only when the parent id resolves (a missing parent, a falsy `parentId`
and the "0" sentinel all stop the walk in the same way). -/
def walkNext (reg : List Person) (current : Person) : Option Person :=
  match current.parentId with
  | some pid => if pid ≠ "0" ∧ pid ≠ "" then lookupP reg pid else none
  | none => none

def pathWalk (reg : List Person) : ℕ → List String → Person → List Person
  | 0, _, _ => []
  | fuel + 1, visited, current =>
    if current.id ∈ visited then []
    else
      current ::
        (match walkNext reg current with
         | some par => pathWalk reg fuel (current.id :: visited) par
         | none => [])

/-- `getPathToRoot` (equivalently `getBreadcrumbPath`): the walk, with the
root appended when the walk did not reach it, in root-to-person order. -/
def pathToRootList (reg : List Person) (root person : Person) : List Person :=
  let w := pathWalk reg (reg.length + 1) [] person
  let w2 := if w = [] ∨ (w.getLast?).map (·.id) ≠ some root.id then w ++ [root] else w
  w2.reverse

/-- `name.trim()` (ASCII whitespace model, matching the data's repertoire). -/
def trimS (name : String) : String :=
  ⟨((name.toList.dropWhile isWS).reverse.dropWhile isWS).reverse⟩

/-- Resolution of one persisted breadcrumb name
(`find(p => p.name === name.trim())`). -/
def resolveName (reg : List Person) (name : String) : Option Person :=
  reg.find? (fun p => p.name = trimS name)

/-- The name-scanning loop of `loadFromURL` (and of the `popstate`
handler): resolve names in order, remembering the last hit, stopping at the
first name that does not resolve. -/
def loadLoop (reg : List Person) (cur : Option Person) :
    List String → Option Person
  | [] => cur
  | n :: ns =>
    match resolveName reg n with
    | some p => loadLoop reg (some p) ns
    | none => cur

/-- `loadFromURL`'s focus reconstruction from a persisted name path: the
last resolved name's person, or the root when no name resolved. -/
def loadFocus (reg : List Person) (root : Person) (names : List String) : Person :=
  match loadLoop reg none names with
  | some p => p
  | none => root

/-- Reachability along resolved parent links (the "actual ancestors" of a
person, the person itself included).  Defined from the raw `parentId`
lookup, independently of the walk. -/
inductive Reaches (reg : List Person) : Person → Person → Prop
  | refl (p : Person) : Reaches reg p p
  | step {p q r : Person} {pid : String} :
      p.parentId = some pid → lookupP reg pid = some q →
      Reaches reg q r → Reaches reg p r

/-- `s.toLowerCase()` (ASCII model, as the repertoire of the data). -/
def lowerS (s : String) : String := s.toLower

/-- Case-insensitive containment, as `performSearch` computes it. -/
def ciContains (s t : String) : Bool := strIncludes (lowerS s) (lowerS t)

/-- `a.name.toLowerCase().startsWith(queryLower)`. -/
def ciStartsWith (s t : String) : Bool :=
  isPrefixOfB (lowerS t).toList (lowerS s).toList

/-- Why a person entered the search results. -/
inductive MatchReason where
  | name : MatchReason
  | spouse : MatchReason
deriving DecidableEq, Repr

/-- One entry of `performSearch`'s `matches` array. -/
structure SearchMatch where
  person : Person
  matchReason : MatchReason
  matchedSpouse : String
deriving DecidableEq, Repr

/-- The match-collection loop of `performSearch`: a name containment match,
or else the first marriage whose partner name contains the query (at most
one entry per person). -/
def buildMatches (reg : List Person) (query : String) : List SearchMatch :=
  reg.foldr
    (fun person acc =>
      if ciContains person.name query then
        { person := person, matchReason := .name, matchedSpouse := "" } :: acc
      else
        match (person.events.filter
            (fun e => e.type = "Heirat" && e.partner ≠ "")).find?
            (fun e => ciContains e.partner query) with
        | some e =>
          { person := person, matchReason := .spouse, matchedSpouse := e.partner } :: acc
        | none => acc)
    []

/-- Three-way comparison on naturals, with full definitional control. -/
def ordCmp (a b : ℕ) : Ordering :=
  if a < b then .lt else if b < a then .gt else .eq

/-- Lexicographic comparison of char lists by code point. -/
def lexCmp : List Char → List Char → Ordering
  | [], [] => .eq
  | [], _ :: _ => .lt
  | _ :: _, [] => .gt
  | a :: as, b :: bs =>
    match ordCmp a.toNat b.toNat with
    | .eq => lexCmp as bs
    | o => o

/-- Model of `String.prototype.localeCompare` for the ASCII repertoire:
case-insensitive lexicographic comparison first, exact comparison as the
tie break. -/
def localeCmp (a b : String) : Ordering :=
  match lexCmp (lowerS a).toList (lowerS b).toList with
  | .eq => lexCmp a.toList b.toList
  | o => o

/-- The ranking comparator of `performSearch`: name tier before spouse
tier, then prefix matches first, then `localeCompare` on the names. -/
def searchCmp (query : String) (a b : SearchMatch) : Ordering :=
  match a.matchReason, b.matchReason with
  | .name, .spouse => .lt
  | .spouse, .name => .gt
  | _, _ =>
    let aEx := ciStartsWith a.person.name query
    let bEx := ciStartsWith b.person.name query
    if aEx && !bEx then .lt
    else if !aEx && bEx then .gt
    else localeCmp a.person.name b.person.name

/-- `performSearch`'s ranked result list (before rendering): matches in
registry order, sorted by the ranking comparator, capped at 20. -/
def performSearchCore (reg : List Person) (query : String) : List SearchMatch :=
  (jsSort (fun a b => searchCmp query a b ≠ .gt) (buildMatches reg query)).take 20

/-! ### Basic registry lemmas -/

theorem lookupP_mem {reg : List Person} {k : String} {p : Person}
    (h : lookupP reg k = some p) : p ∈ reg :=
  List.mem_of_find?_eq_some h

theorem lookupP_id {reg : List Person} {k : String} {p : Person}
    (h : lookupP reg k = some p) : p.id = k := by
  have := List.find?_some h
  simpa using this

theorem lookupP_isSome_of_mem_ids {reg : List Person} {k : String}
    (h : k ∈ idsOf reg) : ∃ p, lookupP reg k = some p := by
  induction reg with
  | nil => simp [idsOf] at h
  | cons a l ih =>
    by_cases ha : a.id = k
    · exact ⟨a, by simp [lookupP, List.find?, ha]⟩
    · have : k ∈ idsOf l := by
        simp [idsOf] at h ⊢
        rcases h with h | h
        · exact absurd h.symm ha
        · exact h
      rcases ih this with ⟨p, hp⟩
      exact ⟨p, by simpa [lookupP, List.find?, ha] using hp⟩

theorem mem_ids_of_lookupP {reg : List Person} {k : String} {p : Person}
    (h : lookupP reg k = some p) : k ∈ idsOf reg := by
  have hm := lookupP_mem h
  have hid := lookupP_id h
  simp [idsOf]
  exact ⟨p, hm, hid⟩

theorem lookupP_none_of_not_mem_ids {reg : List Person} {k : String}
    (h : k ∉ idsOf reg) : lookupP reg k = none := by
  cases hl : lookupP reg k with
  | none => rfl
  | some p => exact absurd (mem_ids_of_lookupP hl) h

theorem idsOf_updatePerson (reg : List Person) (k : String) (f : Person → Person)
    (hf : ∀ p, (f p).id = p.id) : idsOf (updatePerson reg k f) = idsOf reg := by
  simp only [idsOf, updatePerson, List.map_map]
  refine List.map_congr_left (fun p _ => ?_)
  by_cases h : p.id = k <;> simp [h, hf]

theorem lookupP_updatePerson_self (reg : List Person) (k : String)
    (f : Person → Person) (hf : ∀ p, p.id = k → (f p).id = k) :
    lookupP (updatePerson reg k f) k = (lookupP reg k).map (fun p => if p.id = k then f p else p) := by
  induction reg with
  | nil => rfl
  | cons a l ih =>
    by_cases h : a.id = k
    · have h1 : lookupP (updatePerson (a :: l) k f) k = some (f a) := by
        simp only [updatePerson, List.map_cons, if_pos h]
        exact List.find?_cons_of_pos _ (by simp [hf a h])
      have h2 : lookupP (a :: l) k = some a :=
        List.find?_cons_of_pos _ (by simp [h])
      rw [h1, h2]
      simp [h]
    · have h1 : lookupP (updatePerson (a :: l) k f) k = lookupP (updatePerson l k f) k := by
        simp only [updatePerson, List.map_cons, if_neg h]
        exact List.find?_cons_of_neg _ (by simp [h])
      have h2 : lookupP (a :: l) k = lookupP l k :=
        List.find?_cons_of_neg _ (by simp [h])
      rw [h1, h2, ih]

theorem lookupP_updatePerson_other (reg : List Person) (k k' : String)
    (f : Person → Person) (hf : ∀ p, p.id = k → (f p).id = k) (hne : k' ≠ k) :
    lookupP (updatePerson reg k f) k' = lookupP reg k' := by
  induction reg with
  | nil => rfl
  | cons a l ih =>
    by_cases h : a.id = k
    · have hne' : ¬ (f a).id = k' := by
        rw [hf a h]; exact fun hc => hne hc.symm
      have hne'' : ¬ a.id = k' := by
        rw [h]; exact fun hc => hne hc.symm
      have h1 : lookupP (updatePerson (a :: l) k f) k' = lookupP (updatePerson l k f) k' := by
        simp only [updatePerson, List.map_cons, if_pos h]
        exact List.find?_cons_of_neg _ (by simp [hne'])
      have h2 : lookupP (a :: l) k' = lookupP l k' :=
        List.find?_cons_of_neg _ (by simp [hne''])
      rw [h1, h2, ih]
    · by_cases h2 : a.id = k'
      · have ha : lookupP (updatePerson (a :: l) k f) k' = some a := by
          simp only [updatePerson, List.map_cons, if_neg h]
          exact List.find?_cons_of_pos _ (by simp [h2])
        have hb : lookupP (a :: l) k' = some a :=
          List.find?_cons_of_pos _ (by simp [h2])
        rw [ha, hb]
      · have ha : lookupP (updatePerson (a :: l) k f) k' = lookupP (updatePerson l k f) k' := by
          simp only [updatePerson, List.map_cons, if_neg h]
          exact List.find?_cons_of_neg _ (by simp [h2])
        have hb : lookupP (a :: l) k' = lookupP l k' :=
          List.find?_cons_of_neg _ (by simp [h2])
        rw [ha, hb, ih]

theorem events_subset_updatePerson (reg : List Person) (k k' : String)
    (f : Person → Person) (hf : ∀ p, p.id = k → (f p).id = k)
    (hev : ∀ p, ∀ e ∈ p.events, e ∈ (f p).events)
    {p : Person} (h : lookupP reg k' = some p) :
    ∃ p', lookupP (updatePerson reg k f) k' = some p' ∧ ∀ e ∈ p.events, e ∈ p'.events := by
  by_cases hk : k' = k
  · subst hk
    rw [lookupP_updatePerson_self reg k' f hf, h]
    by_cases hp : p.id = k'
    · exact ⟨f p, by simp [hp], hev p⟩
    · exact ⟨p, by simp [hp], fun e he => he⟩
  · rw [lookupP_updatePerson_other reg k k' f hf hk, h]
    exact ⟨p, rfl, fun e he => he⟩

/-! ### `find?` first-match decomposition -/

theorem find?_first {α : Type} (p : α → Bool) :
    ∀ (l : List α) (a : α), l.find? p = some a →
      ∃ u v, l = u ++ a :: v ∧ p a = true ∧ ∀ x ∈ u, p x = false
  | [], a, h => by simp [List.find?] at h
  | x :: l, a, h => by
    cases hx : p x with
    | true =>
      rw [List.find?_cons_of_pos _ hx, Option.some_inj] at h
      subst h
      exact ⟨[], l, rfl, hx, by simp⟩
    | false =>
      rw [List.find?_cons_of_neg _ (by simp [hx])] at h
      rcases find?_first p l a h with ⟨u, v, hl, hpa, hu⟩
      refine ⟨x :: u, v, by rw [hl]; rfl, hpa, ?_⟩
      intro y hy
      rcases List.mem_cons.mp hy with rfl | hy
      · exact hx
      · exact hu y hy

/-! ### C1: the spec's `normalizeDate` examples -/

/-- C1 (counterexample): the spec example `normalizeDate(1) = '1900-01-01'`
is false on the code — any numeric input below 10000 takes the bare-year
branch, so `convertExcelDate(1)` is the string `"1"`. -/
theorem C1_counterexample :
    convertExcelDate (.vnum 1) = "1" ∧ convertExcelDate (.vnum 1) ≠ "1900-01-01" := by
  exact ⟨rfl, by decide⟩

/-- C1 (amended): `convertExcelDate` maps 0 to the empty string and every
positive numeric input below 10000 — including the serials 1, 60 and 61 of
the spec's examples — to its integer string: `0 ↦ ''`, `1485 ↦ '1485'`,
`1 ↦ '1'`, `60 ↦ '60'`, `61 ↦ '61'`. -/
theorem C1_amended :
    convertExcelDate (.vnum 0) = "" ∧
    convertExcelDate (.vnum 1485) = "1485" ∧
    convertExcelDate (.vnum 1) = "1" ∧
    convertExcelDate (.vnum 60) = "60" ∧
    convertExcelDate (.vnum 61) = "61" := by
  refine ⟨rfl, rfl, rfl, rfl, rfl⟩

/-! ### C2: the full contract of the date normalizer -/

theorem epochDay_eq : epochDay = -25569 := by decide

theorem fdiv_mul_day (m : ℤ) : Int.fdiv (m * 86400000) 86400000 = m := by
  rw [Int.fdiv_eq_ediv _ (by norm_num)]
  exact Int.mul_ediv_cancel _ (by norm_num)

/-- The integer fraction carried by `convertNum`'s serial branch is exactly
the JS float expression `epoch.getTime() + daysToAdd * 86400000`. -/
theorem convertExcelDate_ms (q : ℚ) :
    (((epochDay * q.den + (if 60 ≤ q then q.num else q.num + q.den)) * 86400000 : ℤ) : ℚ) / (q.den : ℚ)
      = ((epochDay * 86400000 : ℤ) : ℚ) + (if 60 ≤ q then q else q + 1) * 86400000 := by
  have hden : ((q.den : ℚ)) ≠ 0 := by
    exact_mod_cast q.den_nz
  have hqd := Rat.num_div_den q
  rw [div_eq_iff hden] at hqd
  rw [div_eq_iff hden]
  by_cases h : 60 ≤ q
  · rw [if_pos h, if_pos h]
    push_cast
    linear_combination (86400000 : ℚ) * hqd
  · rw [if_neg h, if_neg h]
    push_cast
    linear_combination (86400000 : ℚ) * hqd

/-- C2 (counterexample): the claim maps every non-positive input to the
empty string, but `convertExcelDate("-07")` parses to `-7 ≤ 0` and returns
the input unchanged — neither `""` nor the integer year string `"-7"`. -/
theorem C2_counterexample :
    convertExcelDate (.vstr "-07") = "-07" ∧
    convertExcelDate (.vstr "-07") ≠ "" ∧
    convertExcelDate (.vstr "-07") ≠ "-7" := by
  refine ⟨by decide, by decide, by decide⟩

/-- C2 (amended): `convertExcelDate` returns the empty string exactly for
`null`/`0`/`''`/`'0'`; returns the input unchanged (as a string) when it is
non-numeric or parses to a non-positive number; returns the floored integer
year string for numeric input strictly between 0 and 10000; and for integer
numeric input `n ≥ 10000` returns the `YYYY-MM-DD` date obtained by adding
`n` days to the Dec 30, 1899 epoch while the resulting timestamp is
representable (`n ≤ 100025569`), falling back to the input string beyond
that.  (The `n + 1` branch for day-counts below 60 is unreachable: every
input below 10000 is already consumed by the bare-year branch.) -/
theorem C2_amended :
    (convertExcelDate .vnull = "" ∧ convertExcelDate (.vnum 0) = "" ∧
     convertExcelDate (.vstr "") = "" ∧ convertExcelDate (.vstr "0") = "") ∧
    (∀ s : String, s ≠ "" → s ≠ "0" → parseFloatQ s = none →
       convertExcelDate (.vstr s) = s) ∧
    (∀ v q, jsTruthy v = true → v ≠ .vstr "0" → jsParseFloat v = some q →
       q ≤ 0 → convertExcelDate v = jsToString v) ∧
    (∀ v q, jsTruthy v = true → v ≠ .vstr "0" → jsParseFloat v = some q →
       0 < q → q < 10000 → convertExcelDate v = toString ⌊q⌋) ∧
    (∀ v (n : ℤ), jsTruthy v = true → v ≠ .vstr "0" →
       jsParseFloat v = some (n : ℚ) → 10000 ≤ n → n ≤ 100025569 →
       convertExcelDate v = formatYMD (civilFromDays (epochDay + n))) ∧
    (∀ v (n : ℤ), jsTruthy v = true → v ≠ .vstr "0" →
       jsParseFloat v = some (n : ℚ) → 100025569 < n →
       convertExcelDate v = jsToString v) := by
  have hguard : ∀ v : JSVal, jsTruthy v = true → v ≠ .vstr "0" →
      ¬ (¬ jsTruthy v = true ∨ v = .vstr "0") := by
    intro v h1 h2
    simp [h1, h2]
  refine ⟨⟨by decide, by decide, by decide, by decide⟩, ?_, ?_, ?_, ?_, ?_⟩
  · intro s hs hs0 hpf
    have h1 : jsTruthy (.vstr s) = true := by simpa [jsTruthy] using hs
    have h2 : (JSVal.vstr s) ≠ .vstr "0" := by simpa using hs0
    rw [convertExcelDate, if_neg (hguard _ h1 h2)]
    simp only [jsParseFloat, hpf, Option.elim_none]
    rfl
  · intro v q h1 h2 hpf hq
    rw [convertExcelDate, if_neg (hguard _ h1 h2), hpf, Option.elim_some,
      convertNum, if_pos hq]
  · intro v q h1 h2 hpf hq0 hq1
    rw [convertExcelDate, if_neg (hguard _ h1 h2), hpf, Option.elim_some,
      convertNum, if_neg (by exact not_le.mpr hq0), if_pos hq1]
  · intro v n h1 h2 hpf hn1 hn2
    rw [convertExcelDate, if_neg (hguard _ h1 h2), hpf, Option.elim_some,
      convertNum]
    have hq0 : ¬ ((n : ℚ) ≤ 0) := by
      rw [not_le]
      exact_mod_cast lt_of_lt_of_le (by norm_num) hn1
    have hq1 : ¬ ((n : ℚ) < 10000) := by
      rw [not_lt]
      exact_mod_cast hn1
    have h60 : (60 : ℚ) ≤ ((n : ℤ) : ℚ) := by
      exact_mod_cast le_trans (by norm_num) hn1
    rw [if_neg hq0, if_neg hq1]
    simp only [if_pos h60, Rat.num_intCast, Rat.den_intCast, Nat.cast_one,
      mul_one, Int.tdiv_one]
    have habs : ¬ (maxDateMs < |(epochDay + n) * 86400000|) := by
      rw [not_lt, abs_le, epochDay_eq]
      unfold maxDateMs
      constructor <;> nlinarith
    rw [if_neg habs, fdiv_mul_day]
  · intro v n h1 h2 hpf hn
    rw [convertExcelDate, if_neg (hguard _ h1 h2), hpf, Option.elim_some,
      convertNum]
    have hq0 : ¬ ((n : ℚ) ≤ 0) := by
      rw [not_le]
      exact_mod_cast lt_of_lt_of_le (by norm_num) (le_of_lt hn)
    have hq1 : ¬ ((n : ℚ) < 10000) := by
      rw [not_lt]
      exact_mod_cast le_trans (by norm_num) (le_of_lt hn)
    have h60 : (60 : ℚ) ≤ ((n : ℤ) : ℚ) := by
      exact_mod_cast le_trans (by norm_num) (le_of_lt hn)
    rw [if_neg hq0, if_neg hq1]
    simp only [if_pos h60, Rat.num_intCast, Rat.den_intCast, Nat.cast_one,
      mul_one, Int.tdiv_one]
    have habs : maxDateMs < |(epochDay + n) * 86400000| := by
      rw [epochDay_eq]
      unfold maxDateMs
      rw [abs_of_pos (by nlinarith)]
      nlinarith
    rw [if_pos habs]

/-- C2 (witness): the amended contract evaluated on one concrete input per
branch: a non-numeric string, a negative number, a bare year, an in-range
Excel serial, and an out-of-range serial. -/
theorem C2_witness :
    convertExcelDate (.vstr "abc") = "abc" ∧
    convertExcelDate (.vnum (-7)) = "-7" ∧
    convertExcelDate (.vnum 1955) = "1955" ∧
    convertExcelDate (.vnum 20000) = "1954-10-03" ∧
    convertExcelDate (.vnum 200000000) = "200000000" := by
  refine ⟨?_, ?_, ?_, ?_, ?_⟩
  · exact C2_amended.2.1 "abc" (by decide) (by decide) (by decide)
  · exact (C2_amended.2.2.1 (.vnum (-7)) (-7) (by decide) (by decide) rfl
      (by norm_num)).trans (by decide)
  · exact (C2_amended.2.2.2.1 (.vnum 1955) 1955 (by decide) (by decide) rfl
      (by norm_num) (by norm_num)).trans (by decide)
  · exact (C2_amended.2.2.2.2.1 (.vnum 20000) 20000 (by decide) (by decide)
      (by norm_cast) (by norm_num) (by norm_num)).trans (by decide)
  · exact (C2_amended.2.2.2.2.2 (.vnum 200000000) 200000000 (by decide) (by decide)
      (by norm_cast) (by norm_num)).trans (by decide)

/-! ### C10: `countDescendants` can diverge on a constructible registry -/

/-- A single record whose explicit parent id is its own anchor id. -/
def selfRec : Record :=
  { Person := "A", AnchorId := .vstr "A", Ereignis := "Geburt", Datum := .vnull,
    Partner := "", PartnerGeburtTod := "", Eltern1 := "", Eltern2 := "",
    ParentId := .vstr "A" }

/-- The registry `buildTree` produces from that single record. -/
def selfReg : List Person := famAssemble [selfRec]

/-- The one person of `selfReg`, listed among its own children by the
second pass. -/
def selfPerson : Person :=
  { id := "A", name := "A",
    events := [{ type := "Geburt", date := "", partner := "",
                 partnerBirthDeath := "", parent1 := "", parent2 := "" }],
    children := ["A"], parentId := some "A" }

/-- C10: tree construction can produce a registry whose children lists
contain a cycle — the single self-parenting record yields a person that is
its own child — and on it the `countDescendants` recursion runs out of any
amount of fuel, i.e. the JS recursion never terminates. -/
theorem C10_diverges :
    lookupP selfReg "A" = some selfPerson ∧
    selfPerson ∈ selfReg ∧ "A" ∈ selfPerson.children ∧
    ∀ fuel, countDFuel fuel selfReg "A" = none := by
  refine ⟨by decide, by decide, by decide, ?_⟩
  intro fuel
  induction fuel with
  | zero => rfl
  | succ n ih =>
    show countDFuel (n + 1) selfReg "A" = none
    rw [countDFuel, show lookupP selfReg "A" = some selfPerson from by decide]
    simp only [selfPerson, List.mapM_cons, List.mapM_nil, ih]
    rfl

/-! ### C4: fallback root selection -/

theorem earliestStep_cases (e c : Person) :
    earliestStep e c = e ∨ earliestStep e c = c := by
  unfold earliestStep
  cases birthT e with
  | none => exact Or.inr rfl
  | some ye =>
    cases birthT c with
    | none => exact Or.inl rfl
    | some yc =>
      by_cases h : (ye : ℤ) < (yc : ℤ) <;> simp [h]

theorem earliestStep_min (e c : Person) :
    (∀ y, birthT e = some y → ∃ yr, birthT (earliestStep e c) = some yr ∧ yr ≤ y) ∧
    (∀ y, birthT c = some y → ∃ yr, birthT (earliestStep e c) = some yr ∧ yr ≤ y) := by
  cases he : birthT e with
  | none =>
    have hst : earliestStep e c = c := by simp only [earliestStep, he]
    constructor
    · intro y hy
      exact absurd hy (by simp)
    · intro y hy
      exact ⟨y, by rw [hst, hy], le_refl y⟩
  | some ye =>
    cases hc : birthT c with
    | none =>
      have hst : earliestStep e c = e := by simp only [earliestStep, he, hc]
      constructor
      · intro y hy
        have hyy : ye = y := Option.some_inj.mp hy
        exact ⟨y, by rw [hst, he, hyy], le_refl y⟩
      · intro y hy
        exact absurd hy (by simp)
    | some yc =>
      by_cases h : (ye : ℤ) < (yc : ℤ)
      · have hst : earliestStep e c = e := by
          simp only [earliestStep, he, hc, if_pos h]
        have hle : ye ≤ yc := by exact_mod_cast le_of_lt h
        constructor
        · intro y hy
          have hyy : ye = y := Option.some_inj.mp hy
          exact ⟨ye, by rw [hst, he], hyy ▸ le_refl ye⟩
        · intro y hy
          have hyy : yc = y := Option.some_inj.mp hy
          exact ⟨ye, by rw [hst, he], hyy ▸ hle⟩
      · have hst : earliestStep e c = c := by
          simp only [earliestStep, he, hc, if_neg h]
        have hle : yc ≤ ye := by
          have := not_lt.mp h
          exact_mod_cast this
        constructor
        · intro y hy
          have hyy : ye = y := Option.some_inj.mp hy
          exact ⟨yc, by rw [hst, hc], hyy ▸ hle⟩
        · intro y hy
          have hyy : yc = y := Option.some_inj.mp hy
          exact ⟨yc, by rw [hst, hc], hyy ▸ le_refl yc⟩

theorem earliestStep_none (e c : Person) (he : birthT e = none)
    (hc : birthT c = none) : earliestStep e c = c := by
  simp only [earliestStep, he]

theorem earliestFold (l : List Person) :
    ∀ acc : Person,
      (l.foldl earliestStep acc = acc ∨ l.foldl earliestStep acc ∈ l) ∧
      (∀ y, birthT acc = some y →
        ∃ yr, birthT (l.foldl earliestStep acc) = some yr ∧ yr ≤ y) ∧
      (∀ y, ∀ q ∈ l, birthT q = some y →
        ∃ yr, birthT (l.foldl earliestStep acc) = some yr ∧ yr ≤ y) ∧
      ((birthT acc = none ∧ ∀ q ∈ l, birthT q = none) →
        l.foldl earliestStep acc = (acc :: l).getLast (List.cons_ne_nil acc l)) := by
  induction l with
  | nil =>
    intro acc
    refine ⟨Or.inl rfl, fun y hy => ⟨y, hy, le_refl y⟩, fun y q hq => by simp at hq,
      fun _ => rfl⟩
  | cons x l ih =>
    intro acc
    obtain ⟨ih1, ih2, ih3, ih4⟩ := ih (earliestStep acc x)
    refine ⟨?_, ?_, ?_, ?_⟩
    · rcases ih1 with h | h
      · rw [List.foldl_cons, h]
        rcases earliestStep_cases acc x with h2 | h2
        · exact Or.inl h2
        · rw [h2]
          exact Or.inr (List.mem_cons_self x l)
      · exact Or.inr (List.mem_cons_of_mem x h)
    · intro y hy
      rcases (earliestStep_min acc x).1 y hy with ⟨yr, h1, h2⟩
      rcases ih2 yr h1 with ⟨yr2, h3, h4⟩
      exact ⟨yr2, h3, le_trans h4 h2⟩
    · intro y q hq hqy
      rcases List.mem_cons.mp hq with rfl | hq2
      · rcases (earliestStep_min acc q).2 y hqy with ⟨yr, h1, h2⟩
        rcases ih2 yr h1 with ⟨yr2, h3, h4⟩
        exact ⟨yr2, h3, le_trans h4 h2⟩
      · exact ih3 y q hq2 hqy
    · rintro ⟨hacc, hall⟩
      have hx : birthT x = none := hall x (List.mem_cons_self x l)
      have hstep : earliestStep acc x = x := earliestStep_none acc x hacc hx
      have h4 := ih4 ⟨by rw [hstep]; exact hx, fun q hq => hall q (List.mem_cons_of_mem x hq)⟩
      rw [List.foldl_cons, h4]
      cases l with
      | nil => simp [hstep]
      | cons z zs => simp [List.getLast]

/-- C4 (counterexample): with two parentless candidates both lacking a
birth year and no person at id "0", root selection returns the second
(last-encountered) candidate, not the first as the claim states. -/
theorem C4_counterexample :
    selectRoot [newPerson "X" "Xan", newPerson "Y" "Yan"] = some (newPerson "Y" "Yan") ∧
    newPerson "Y" "Yan" ≠ newPerson "X" "Xan" := by
  exact ⟨by decide, by decide⟩

/-- C4 (amended): when no person sits at the reserved id "0" with no
resolved parent and at least one parentless candidate exists, the chosen
root is a parentless candidate whose known birth year is minimal among all
candidates with a known year (so an unknown-birth candidate is never chosen
over a known-birth one), and when every candidate lacks a birth year the
**last** encountered candidate is chosen. -/
theorem C4_amended (reg : List Person)
    (h0 : ∀ p0, lookupP reg "0" = some p0 → noParentB p0 = false)
    (c : Person) (cs : List Person) (hc : reg.filter noParentB = c :: cs) :
    ∃ r, selectRoot reg = some r ∧
      r ∈ reg.filter noParentB ∧
      (∀ y, ∀ q ∈ reg.filter noParentB, birthT q = some y →
        ∃ yr, birthT r = some yr ∧ yr ≤ y) ∧
      ((∀ q ∈ reg.filter noParentB, birthT q = none) →
        r = (c :: cs).getLast (List.cons_ne_nil c cs)) := by
  obtain ⟨f1, f2, f3, f4⟩ := earliestFold cs c
  have hcmem : c ∈ reg.filter noParentB := hc ▸ List.mem_cons_self c cs
  have hrmem : cs.foldl earliestStep c ∈ reg.filter noParentB := by
    rcases f1 with h | h
    · rw [h]
      exact hcmem
    · rw [hc]
      exact List.mem_cons_of_mem c h
  have hroot : selectRoot reg = some (cs.foldl earliestStep c) := by
    cases hl : lookupP reg "0" with
    | none => simp only [selectRoot, hl, hc]
    | some p0 => simp [selectRoot, hl, h0 p0 hl, hc]
  refine ⟨cs.foldl earliestStep c, hroot, hrmem, ?_, ?_⟩
  · intro y q hq hqy
    rw [hc] at hq
    rcases List.mem_cons.mp hq with rfl | hq2
    · exact f2 y hqy
    · exact f3 y q hq2 hqy
  · intro hall
    exact f4 ⟨hall c hcmem, fun q hq => hall q (hc ▸ List.mem_cons_of_mem c hq)⟩

/-- The registry used by the C4 witness: one unknown-birth and two
known-birth parentless candidates (no person at id "0"). -/
def c4Reg : List Person :=
  [{ newPerson "X" "Xan" with
     events := [{ type := "Geburt", date := "1905", partner := "",
                  partnerBirthDeath := "", parent1 := "", parent2 := "" }] },
   newPerson "U" "Uli",
   { newPerson "Z" "Zed" with
     events := [{ type := "Geburt", date := "1850", partner := "",
                  partnerBirthDeath := "", parent1 := "", parent2 := "" }] }]

/-- C4 (witness): the amended selection rule applied to `c4Reg`. -/
theorem C4_witness :
    ∃ r, selectRoot c4Reg = some r ∧
      r ∈ c4Reg.filter noParentB ∧
      (∀ y, ∀ q ∈ c4Reg.filter noParentB, birthT q = some y →
        ∃ yr, birthT r = some yr ∧ yr ≤ y) ∧
      ((∀ q ∈ c4Reg.filter noParentB, birthT q = none) →
        r = (c4Reg.head?.getD (newPerson "" "") ::
              (c4Reg.filter noParentB).tail).getLast (List.cons_ne_nil _ _)) := by
  have h := C4_amended c4Reg
    (by
      intro p0 h
      rw [show lookupP c4Reg "0" = none from by decide] at h
      exact absurd h (by simp))
    (c4Reg.head?.getD (newPerson "" ""))
    ((c4Reg.filter noParentB).tail)
    (by decide)
  exact h

/-! ### C3: focus reconstruction from a persisted name path -/

theorem pathWalk_cons (reg : List Person) (fuel : ℕ) (p : Person) :
    ∃ rest, pathWalk reg (fuel + 1) [] p = p :: rest := by
  rw [pathWalk, if_neg (by simp)]
  exact ⟨_, rfl⟩

/-- Every path returned by `getPathToRoot`/`getBreadcrumbPath` ends at the
person it was asked about. -/
theorem pathToRootList_getLast (reg : List Person) (root p : Person) :
    (pathToRootList reg root p).getLast? = some p := by
  unfold pathToRootList
  obtain ⟨rest, hw⟩ := pathWalk_cons reg reg.length p
  rw [hw, List.getLast?_reverse]
  split
  · rw [List.cons_append, List.head?_cons]
  · rw [List.head?_cons]

theorem loadLoop_all_resolve (reg : List Person) :
    ∀ (names : List String) (cur : Option Person) (last : String),
      names.getLast? = some last →
      (∀ n ∈ names, (resolveName reg n).isSome) →
      loadLoop reg cur names = resolveName reg last := by
  intro names
  induction names with
  | nil =>
    intro cur last h
    simp at h
  | cons n ns ih =>
    intro cur last hlast hall
    obtain ⟨p, hp⟩ := Option.isSome_iff_exists.mp (hall n (List.mem_cons_self n ns))
    cases ns with
    | nil =>
      have : n = last := by simpa using hlast
      subst this
      simp [loadLoop, hp]
    | cons m ms =>
      have hlast' : (m :: ms).getLast? = some last := by
        rw [List.getLast?_cons_cons] at hlast
        exact hlast
      simp only [loadLoop, hp]
      exact ih (some p) last hlast' (fun x hx => hall x (List.mem_cons_of_mem _ hx))

theorem loadLoop_prefix_stop (reg : List Person) :
    ∀ (pre : List String) (n : String) (ns : List String) (cur : Option Person),
      (∀ m ∈ pre, (resolveName reg m).isSome) → resolveName reg n = none →
      loadLoop reg cur (pre ++ n :: ns) = loadLoop reg cur pre := by
  intro pre
  induction pre with
  | nil =>
    intro n ns cur _ hn
    simp [loadLoop, hn]
  | cons m pre ih =>
    intro n ns cur hall hn
    obtain ⟨p, hp⟩ := Option.isSome_iff_exists.mp (hall m (List.mem_cons_self m pre))
    simp only [List.cons_append, loadLoop, hp]
    exact ih n ns (some p) (fun x hx => hall x (List.mem_cons_of_mem _ hx)) hn

/-- C3 (counterexample): with registry `[Rita, Bob]`, root Rita, and the
persisted path `["Bob", "Xavier"]` whose second name resolves to nobody,
`loadFromURL` keeps Bob as the focus instead of falling back to the root as
the claim states. -/
theorem C3_counterexample :
    loadFocus [newPerson "R" "Rita", newPerson "B" "Bob"] (newPerson "R" "Rita")
        ["Bob", "Xavier"] = newPerson "B" "Bob" ∧
    newPerson "B" "Bob" ≠ newPerson "R" "Rita" := by
  exact ⟨by decide, by decide⟩

/-- C3 (amended): reconstructing focus from the persisted breadcrumb name
list reproduces the original focus when every breadcrumb name resolves (as
first match in registry order) to its own breadcrumb person; when a name
fails to resolve the scan stops, keeping the person of the last name
resolved before the failure; and focus falls back to the root only when no
name at all resolved (in particular on the empty list). -/
theorem C3_amended :
    (∀ (reg : List Person) (root focus : Person),
       (∀ p ∈ pathToRootList reg root focus, resolveName reg p.name = some p) →
       loadFocus reg root ((pathToRootList reg root focus).map (·.name)) = focus) ∧
    (∀ (reg : List Person) (root : Person) (pre : List String) (n : String)
       (ns : List String),
       (∀ m ∈ pre, (resolveName reg m).isSome) → resolveName reg n = none →
       loadFocus reg root (pre ++ n :: ns) = loadFocus reg root pre) ∧
    (∀ (reg : List Person) (root : Person), loadFocus reg root [] = root) := by
  refine ⟨?_, ?_, fun reg root => rfl⟩
  · intro reg root focus hres
    have hlast := pathToRootList_getLast reg root focus
    have hfocus : focus ∈ pathToRootList reg root focus :=
      List.mem_of_getLast?_eq_some hlast
    have hnames : ((pathToRootList reg root focus).map (·.name)).getLast? =
        some focus.name := by
      rw [List.getLast?_map, hlast]
      rfl
    have hall : ∀ nm ∈ (pathToRootList reg root focus).map (·.name),
        (resolveName reg nm).isSome := by
      intro nm hnm
      obtain ⟨p, hp, rfl⟩ := List.mem_map.mp hnm
      rw [hres p hp]
      rfl
    unfold loadFocus
    rw [loadLoop_all_resolve reg _ none focus.name hnames hall, hres focus hfocus]
  · intro reg root pre n ns hall hn
    unfold loadFocus
    rw [loadLoop_prefix_stop reg pre n ns none hall hn]

/-- The two-person chain registry used by the C3 witness. -/
def c3Reg : List Person :=
  [newPerson "R" "Rita", { newPerson "C" "Carl" with parentId := some "R" }]

/-- C3 (witness): the amended reconstruction rule on `c3Reg` — the saved
breadcrumb of Carl reloads to Carl, a failing second name keeps the prefix
result, and the empty list yields the root. -/
theorem C3_witness :
    loadFocus c3Reg (newPerson "R" "Rita")
        ((pathToRootList c3Reg (newPerson "R" "Rita")
          { newPerson "C" "Carl" with parentId := some "R" }).map (·.name)) =
      { newPerson "C" "Carl" with parentId := some "R" } ∧
    loadFocus c3Reg (newPerson "R" "Rita") (["Carl"] ++ "Nobody" :: []) =
      loadFocus c3Reg (newPerson "R" "Rita") ["Carl"] ∧
    loadFocus c3Reg (newPerson "R" "Rita") [] = newPerson "R" "Rita" := by
  exact ⟨C3_amended.1 c3Reg _ _ (by decide),
    C3_amended.2.1 c3Reg _ ["Carl"] "Nobody" [] (by decide) (by decide),
    C3_amended.2.2 c3Reg _⟩


/-! ### C6: the upward walk is cycle-safe and depth-bounded -/

theorem walkNext_step {reg : List Person} {cur par : Person}
    (h : walkNext reg cur = some par) :
    ∃ pid, cur.parentId = some pid ∧ lookupP reg pid = some par := by
  unfold walkNext at h
  cases hp : cur.parentId with
  | none =>
    simp only [hp] at h
    cases h
  | some pid =>
    simp only [hp] at h
    by_cases hc : pid ≠ "0" ∧ pid ≠ ""
    · rw [if_pos hc] at h
      exact ⟨pid, rfl, h⟩
    · rw [if_neg hc] at h
      cases h

theorem length_filter_mono {α : Type} (l : List α) (P Q : α → Bool)
    (h : ∀ a ∈ l, P a = true → Q a = true) :
    (l.filter P).length ≤ (l.filter Q).length := by
  induction l with
  | nil => simp
  | cons a t ih =>
    have iht := ih (fun x hx => h x (List.mem_cons_of_mem _ hx))
    by_cases hp : P a = true
    · rw [List.filter_cons_of_pos hp,
        List.filter_cons_of_pos (h a (List.mem_cons_self a t) hp)]
      simpa using iht
    · rw [List.filter_cons_of_neg (by simpa using hp)]
      by_cases hq : Q a = true
      · rw [List.filter_cons_of_pos hq]
        exact le_trans iht (Nat.le_succ _)
      · rw [List.filter_cons_of_neg (by simpa using hq)]
        exact iht

theorem length_filter_visited_lt (reg : List Person) (visited : List String)
    (cur : Person) (hmem : cur ∈ reg) (hnv : cur.id ∉ visited) :
    (reg.filter (fun p => p.id ∉ (cur.id :: visited))).length <
      (reg.filter (fun p => p.id ∉ visited)).length := by
  induction reg with
  | nil => cases hmem
  | cons a t ih =>
    have hmono : ∀ x ∈ t, (fun p => decide (p.id ∉ (cur.id :: visited))) x = true →
        (fun p => decide (p.id ∉ visited)) x = true := by
      intro x _ hx
      simp only [decide_eq_true_eq] at hx ⊢
      exact fun hc => hx (List.mem_cons_of_mem _ hc)
    rcases List.mem_cons.mp hmem with rfl | hmem'
    · rw [List.filter_cons_of_neg (by simp), List.filter_cons_of_pos (by simpa using hnv)]
      exact Nat.lt_succ_of_le (length_filter_mono t _ _ hmono)
    · by_cases h1 : a.id ∉ (cur.id :: visited)
      · have h2 : a.id ∉ visited := fun hc => h1 (List.mem_cons_of_mem _ hc)
        rw [List.filter_cons_of_pos (by simpa using h1),
          List.filter_cons_of_pos (by simpa using h2)]
        simpa using ih hmem'
      · rw [List.filter_cons_of_neg (by simpa using h1)]
        by_cases h2 : a.id ∉ visited
        · rw [List.filter_cons_of_pos (by simpa using h2)]
          exact Nat.lt_succ_of_le (le_of_lt (ih hmem'))
        · rw [List.filter_cons_of_neg (by simpa using h2)]
          exact ih hmem'

theorem pathWalk_stable (reg : List Person) :
    ∀ (fuel : ℕ) (visited : List String) (cur : Person), cur ∈ reg →
      (reg.filter (fun p => p.id ∉ visited)).length < fuel →
      pathWalk reg fuel visited cur = pathWalk reg (fuel + 1) visited cur := by
  intro fuel
  induction fuel with
  | zero =>
    intro visited cur _ h
    exact absurd h (Nat.not_lt_zero _)
  | succ f ih =>
    intro visited cur hmem h
    by_cases hv : cur.id ∈ visited
    · rw [pathWalk, if_pos hv, pathWalk, if_pos hv]
    · rw [pathWalk, if_neg hv]
      conv_rhs => rw [pathWalk, if_neg hv]
      congr 1
      cases hnext : walkNext reg cur with
      | none => rfl
      | some par =>
        have hparmem : par ∈ reg := by
          obtain ⟨pid, _, h2⟩ := walkNext_step hnext
          exact lookupP_mem h2
        have hlt := length_filter_visited_lt reg visited cur hmem hv
        exact ih (cur.id :: visited) par hparmem (by omega)

theorem pathWalk_spec (reg : List Person) :
    ∀ (fuel : ℕ) (visited : List String) (cur : Person),
      (∀ x ∈ pathWalk reg fuel visited cur, x.id ∉ visited) ∧
      ((pathWalk reg fuel visited cur).map (·.id)).Nodup ∧
      (∀ x ∈ pathWalk reg fuel visited cur, Reaches reg cur x) := by
  intro fuel
  induction fuel with
  | zero =>
    intro visited cur
    refine ⟨?_, ?_, ?_⟩ <;> simp [pathWalk]
  | succ f ih =>
    intro visited cur
    by_cases hv : cur.id ∈ visited
    · rw [pathWalk, if_pos hv]
      refine ⟨?_, ?_, ?_⟩ <;> simp
    · rw [pathWalk, if_neg hv]
      cases hnext : walkNext reg cur with
      | none =>
        refine ⟨?_, by simp, ?_⟩
        · intro x hx
          rw [List.mem_singleton] at hx
          subst hx
          exact hv
        · intro x hx
          rw [List.mem_singleton] at hx
          subst hx
          exact Reaches.refl x
      | some par =>
        obtain ⟨ih1, ih2, ih3⟩ := ih (cur.id :: visited) par
        refine ⟨?_, ?_, ?_⟩
        · intro x hx
          rcases List.mem_cons.mp hx with rfl | hx2
          · exact hv
          · exact fun hc => ih1 x hx2 (List.mem_cons_of_mem _ hc)
        · rw [List.map_cons, List.nodup_cons]
          refine ⟨?_, ih2⟩
          intro hcur
          obtain ⟨x, hx, hxid⟩ := List.mem_map.mp hcur
          exact ih1 x hx (hxid ▸ List.mem_cons_self _ _)
        · intro x hx
          rcases List.mem_cons.mp hx with rfl | hx2
          · exact Reaches.refl x
          · obtain ⟨pid, h1, h2⟩ := walkNext_step hnext
            exact Reaches.step h1 h2 (ih3 x hx2)

theorem reaches_mem {reg : List Person} {p q : Person} (h : Reaches reg p q) :
    p ∈ reg → q ∈ reg := by
  induction h with
  | refl p => exact id
  | step h1 h2 _ ih => exact fun _ => ih (lookupP_mem h2)

/-- C6: on every registry, the upward walk of `getPathToRoot` stabilises as
soon as the fuel exceeds the registry size (the loop terminates), the
traversal visits each person identifier at most once, every traversed
person is an ancestor of the start person along resolved parent links, and
the number of steps is bounded by the size of any duplicate-free
enumeration of those ancestors — including registries whose parent chain
contains a cycle. -/
theorem C6_pathWalk (reg : List Person) (person : Person) (hmem : person ∈ reg) :
    (∀ fuel, reg.length + 1 ≤ fuel →
       pathWalk reg fuel [] person = pathWalk reg (reg.length + 1) [] person) ∧
    ((pathWalk reg (reg.length + 1) [] person).map (·.id)).Nodup ∧
    (∀ x ∈ pathWalk reg (reg.length + 1) [] person, Reaches reg person x) ∧
    (∀ anc : List Person, (∀ q, Reaches reg person q → q ∈ anc) →
       (anc.map (·.id)).Nodup →
       (pathWalk reg (reg.length + 1) [] person).length ≤ anc.length) := by
  obtain ⟨h1, h2, h3⟩ := pathWalk_spec reg (reg.length + 1) [] person
  have hfull : (reg.filter (fun p => p.id ∉ ([] : List String))).length = reg.length := by
    simp
  have hstep : ∀ k, pathWalk reg (reg.length + 1 + k) [] person =
      pathWalk reg (reg.length + 1) [] person := by
    intro k
    induction k with
    | zero => rfl
    | succ j ihj =>
      have := pathWalk_stable reg (reg.length + 1 + j) [] person hmem (by omega)
      rw [show reg.length + 1 + (j + 1) = reg.length + 1 + j + 1 from rfl, ← this, ihj]
  refine ⟨?_, h2, h3, ?_⟩
  · intro fuel hge
    obtain ⟨k, rfl⟩ := Nat.exists_eq_add_of_le hge
    exact hstep k
  · intro anc hcov hnodup
    have hsub : (pathWalk reg (reg.length + 1) [] person).map (·.id) ⊆
        anc.map (·.id) := by
      intro i hi
      obtain ⟨x, hx, rfl⟩ := List.mem_map.mp hi
      exact List.mem_map_of_mem _ (hcov x (h3 x hx))
    have hlen := List.Subperm.length_le (List.subperm_of_subset h2 hsub)
    simpa using hlen

/-- A two-person registry whose parent links form a cycle. -/
def c6Reg : List Person :=
  [{ newPerson "A" "Anna" with parentId := some "B" },
   { newPerson "B" "Bert" with parentId := some "A" }]

/-- C6 (witness): the walk on the cyclic two-person registry `c6Reg` — fuel
beyond the bound does not change the result, the walked identifiers are
distinct, each walked person is an ancestor, and the walk takes at most as
many steps as the registry has persons. -/
theorem C6_witness :
    pathWalk c6Reg (c6Reg.length + 1 + 5) [] { newPerson "A" "Anna" with parentId := some "B" } =
      pathWalk c6Reg (c6Reg.length + 1) [] { newPerson "A" "Anna" with parentId := some "B" } ∧
    ((pathWalk c6Reg (c6Reg.length + 1) [] { newPerson "A" "Anna" with parentId := some "B" }).map (·.id)).Nodup ∧
    (∀ x ∈ pathWalk c6Reg (c6Reg.length + 1) [] { newPerson "A" "Anna" with parentId := some "B" },
       Reaches c6Reg { newPerson "A" "Anna" with parentId := some "B" } x) ∧
    (pathWalk c6Reg (c6Reg.length + 1) [] { newPerson "A" "Anna" with parentId := some "B" }).length ≤
      c6Reg.length := by
  obtain ⟨h1, h2, h3, h4⟩ :=
    C6_pathWalk c6Reg { newPerson "A" "Anna" with parentId := some "B" } (by decide)
  exact ⟨h1 _ (by norm_num), h2, h3,
    h4 c6Reg (fun q hq => reaches_mem hq (by decide)) (by decide)⟩


/-! ### Ingestion lemmas shared by C5 and C7 -/

theorem idsOf_append (l1 l2 : List Person) : idsOf (l1 ++ l2) = idsOf l1 ++ idsOf l2 := by
  simp [idsOf]

theorem idsOf_setPerson (reg : List Person) (k : String) (q : Person)
    (hq : q.id = k) :
    idsOf (setPerson reg k q) =
      if k ∈ idsOf reg then idsOf reg else idsOf reg ++ [k] := by
  unfold setPerson
  by_cases hk : k ∈ idsOf reg
  · rw [if_pos hk, if_pos hk]
    simp only [idsOf, List.map_map]
    refine List.map_congr_left (fun p _ => ?_)
    by_cases h : p.id = k <;> simp [h, hq]
  · rw [if_neg hk, if_neg hk, idsOf_append]
    simp [idsOf, hq]

theorem resolveIdentity_pid_mem (reg : List Person) (r : Record) :
    (resolveIdentity reg r).2 ∈ idsOf (resolveIdentity reg r).1 := by
  unfold resolveIdentity
  by_cases ha : jsTruthy r.AnchorId = true
  · rw [if_pos ha]
    by_cases hk : jsToString r.AnchorId ∈ idsOf reg
    · rw [if_pos hk]
      exact hk
    · rw [if_neg hk]
      show jsToString r.AnchorId ∈ idsOf (reg ++ [newPerson (jsToString r.AnchorId) r.Person])
      rw [idsOf_append]
      exact List.mem_append_right _ (by simp [idsOf, newPerson])
  · cases hfind : reg.find? (fun p => p.name = r.Person) with
    | some p =>
      simp only [Bool.not_eq_true] at ha
      simp only [ha, Bool.false_eq_true, if_false, hfind]
      exact List.mem_map_of_mem _ (List.mem_of_find?_eq_some hfind)
    | none =>
      simp only [Bool.not_eq_true] at ha
      simp only [ha, Bool.false_eq_true, if_false, hfind]
      rw [idsOf_setPerson reg r.Person (newPerson r.Person r.Person) rfl]
      by_cases hk : r.Person ∈ idsOf reg
      · rw [if_pos hk]
        exact hk
      · rw [if_neg hk]
        exact List.mem_append_right _ (List.mem_singleton.mpr rfl)

theorem idsOf_pushEvent (reg : List Person) (pid : String) (r : Record) :
    idsOf (pushEvent reg pid r) = idsOf reg :=
  idsOf_updatePerson reg pid _ (fun _ => rfl)

theorem idsOf_setParentId (reg : List Person) (pid v : String) :
    idsOf (setParentId reg pid v) = idsOf reg :=
  idsOf_updatePerson reg pid _ (fun _ => rfl)

theorem lookupP_setParentId_self (reg : List Person) (pid v : String)
    {q : Person} (hq : lookupP reg pid = some q) :
    lookupP (setParentId reg pid v) pid = some { q with parentId := some v } := by
  unfold setParentId
  rw [lookupP_updatePerson_self reg pid (fun p => { p with parentId := some v })
    (fun p hp => hp), hq]
  simp [lookupP_id hq]

/-! ### C7: free-text parent-name resolution during ingestion -/

/-- C7: during the first pass, for a record with a person name, no truthy
explicit parent id, and a non-empty first parent hint: when some person
matches the hint (name equal to, containing, or contained in the hint), the
resolved person's `parentId` is set to the id of the **first** matching
person in registry order — the registry as of just after this record's
identity and event were added; and when neither hint matches, the step
leaves the registry exactly as it was after the identity/event stage, so
the parent stays unassigned. -/
theorem C7_parentHint (reg : List Person) (r : Record)
    (hP : r.Person ≠ "") (hPid : jsTruthy r.ParentId = false)
    (hE1 : r.Eltern1 ≠ "") :
    (∀ par, findParentByName
        (pushEvent (resolveIdentity reg r).1 (resolveIdentity reg r).2 r) r.Eltern1 = some par →
      (∃ p, lookupP (ingestStep reg r) (resolveIdentity reg r).2 = some p ∧
        p.parentId = some par.id) ∧
      (∃ u v, pushEvent (resolveIdentity reg r).1 (resolveIdentity reg r).2 r = u ++ par :: v ∧
        nameMatches r.Eltern1 par = true ∧ ∀ x ∈ u, nameMatches r.Eltern1 x = false)) ∧
    (findParentByName
        (pushEvent (resolveIdentity reg r).1 (resolveIdentity reg r).2 r) r.Eltern1 = none →
      (r.Eltern2 = "" ∨ findParentByName
        (pushEvent (resolveIdentity reg r).1 (resolveIdentity reg r).2 r) r.Eltern2 = none) →
      ingestStep reg r = pushEvent (resolveIdentity reg r).1 (resolveIdentity reg r).2 r) := by
  constructor
  · intro par hfind
    constructor
    · have hstep : ingestStep reg r =
          setParentId (pushEvent (resolveIdentity reg r).1 (resolveIdentity reg r).2 r)
            (resolveIdentity reg r).2 par.id := by
        simp [ingestStep, hP, hPid, hE1, hfind]
      have hpid : (resolveIdentity reg r).2 ∈
          idsOf (pushEvent (resolveIdentity reg r).1 (resolveIdentity reg r).2 r) := by
        rw [idsOf_pushEvent]
        exact resolveIdentity_pid_mem reg r
      obtain ⟨q, hq⟩ := lookupP_isSome_of_mem_ids hpid
      rw [hstep]
      exact ⟨{ q with parentId := some par.id },
        lookupP_setParentId_self _ _ _ hq, rfl⟩
    · exact find?_first _ _ par hfind
  · intro hfind h2
    rcases h2 with h2 | h2
    · simp [ingestStep, hP, hPid, hE1, hfind, h2]
    · by_cases hE2 : r.Eltern2 = ""
      · simp [ingestStep, hP, hPid, hE1, hfind, hE2]
      · simp [ingestStep, hP, hPid, hE1, hfind, hE2, h2]

/-- The registry and record of the C7 witness: "Carla"'s record carries the
hint "Muller", matching the already-registered "Peter Muller" by
containment. -/
def c7Reg : List Person := [newPerson "P" "Peter Muller"]

def c7Rec : Record :=
  { Person := "Carla", AnchorId := .vstr "C", Ereignis := "Geburt",
    Datum := .vnull, Partner := "", PartnerGeburtTod := "",
    Eltern1 := "Muller", Eltern2 := "", ParentId := .vnull }

/-- C7 (witness): ingesting `c7Rec` into `c7Reg` assigns Peter Muller as
Carla's parent, as the first (and only) substring match for "Muller". -/
theorem C7_witness :
    (∃ p, lookupP (ingestStep c7Reg c7Rec) (resolveIdentity c7Reg c7Rec).2 = some p ∧
      p.parentId = some (newPerson "P" "Peter Muller").id) ∧
    (∃ u v, pushEvent (resolveIdentity c7Reg c7Rec).1 (resolveIdentity c7Reg c7Rec).2 c7Rec =
        u ++ newPerson "P" "Peter Muller" :: v ∧
      nameMatches c7Rec.Eltern1 (newPerson "P" "Peter Muller") = true ∧
      ∀ x ∈ u, nameMatches c7Rec.Eltern1 x = false) := by
  exact (C7_parentHint c7Reg c7Rec (by decide) (by decide) (by decide)).1
    (newPerson "P" "Peter Muller") (by decide)


/-! ### C5: anchor-id identity resolution and event accumulation -/

/-- "The person at key `k` exists and carries the event `e`." -/
def EvIn (reg : List Person) (k : String) (e : Event) : Prop :=
  ∃ p, lookupP reg k = some p ∧ e ∈ p.events

theorem ingestStep_skip (reg : List Person) (r : Record) (h : r.Person = "") :
    ingestStep reg r = reg := by
  simp [ingestStep, h]

/-- After the identity/event stage, the rest of `ingestStep` either leaves
the registry alone or sets the resolved person's `parentId`. -/
theorem ingestStep_shape (reg : List Person) (r : Record) (hP : r.Person ≠ "") :
    ingestStep reg r = pushEvent (resolveIdentity reg r).1 (resolveIdentity reg r).2 r ∨
    ∃ v, ingestStep reg r =
      setParentId (pushEvent (resolveIdentity reg r).1 (resolveIdentity reg r).2 r)
        (resolveIdentity reg r).2 v := by
  simp only [ingestStep, if_neg hP]
  repeat' split
  all_goals first
    | exact Or.inl rfl
    | exact Or.inr ⟨_, rfl⟩

theorem idsOf_ingestStep (reg : List Person) (r : Record) (hP : r.Person ≠ "") :
    idsOf (ingestStep reg r) = idsOf (resolveIdentity reg r).1 := by
  rcases ingestStep_shape reg r hP with h | ⟨v, h⟩ <;> rw [h]
  · exact idsOf_pushEvent _ _ _
  · rw [idsOf_setParentId, idsOf_pushEvent]

theorem idsOf_resolveIdentity (reg : List Person) (r : Record) :
    idsOf (resolveIdentity reg r).1 = idsOf reg ∨
    ∃ k, k ∉ idsOf reg ∧ idsOf (resolveIdentity reg r).1 = idsOf reg ++ [k] := by
  unfold resolveIdentity
  by_cases ha : jsTruthy r.AnchorId = true
  · rw [if_pos ha]
    by_cases hk : jsToString r.AnchorId ∈ idsOf reg
    · rw [if_pos hk]
      exact Or.inl rfl
    · rw [if_neg hk]
      refine Or.inr ⟨jsToString r.AnchorId, hk, ?_⟩
      show idsOf (reg ++ [newPerson (jsToString r.AnchorId) r.Person]) = _
      rw [idsOf_append]
      rfl
  · rw [if_neg ha]
    cases hfind : reg.find? (fun p => p.name = r.Person) with
    | some p =>
      exact Or.inl rfl
    | none =>
      show idsOf (setPerson reg r.Person (newPerson r.Person r.Person)) = _ ∨ _
      rw [idsOf_setPerson reg r.Person _ rfl]
      by_cases hk : r.Person ∈ idsOf reg
      · rw [if_pos hk]
        exact Or.inl rfl
      · rw [if_neg hk]
        exact Or.inr ⟨r.Person, hk, rfl⟩

theorem nodup_ids_ingestStep (reg : List Person) (r : Record)
    (h : (idsOf reg).Nodup) : (idsOf (ingestStep reg r)).Nodup := by
  by_cases hP : r.Person = ""
  · rw [ingestStep_skip reg r hP]
    exact h
  · rw [idsOf_ingestStep reg r hP]
    rcases idsOf_resolveIdentity reg r with h1 | ⟨k, hk, h1⟩ <;> rw [h1]
    · exact h
    · rw [List.nodup_append]
      refine ⟨h, List.nodup_singleton k, ?_⟩
      intro a ha hak
      exact hk ((List.mem_singleton.mp hak) ▸ ha)

theorem nodup_idsOf_foldl (l : List Record) :
    ∀ reg, (idsOf reg).Nodup → (idsOf (l.foldl ingestStep reg)).Nodup := by
  induction l with
  | nil => exact fun reg h => h
  | cons r t ih =>
    intro reg h
    exact ih (ingestStep reg r) (nodup_ids_ingestStep reg r h)

theorem nodup_idsOf_pass1 (records : List Record) :
    (idsOf (pass1 records)).Nodup :=
  nodup_idsOf_foldl records [] List.nodup_nil

theorem lookupP_setPerson_self (reg : List Person) (k : String) (q : Person)
    (hq : q.id = k) : lookupP (setPerson reg k q) k = some q := by
  unfold setPerson
  by_cases hk : k ∈ idsOf reg
  · rw [if_pos hk]
    show lookupP (updatePerson reg k (fun _ => q)) k = some q
    rw [lookupP_updatePerson_self reg k (fun _ => q) (fun _ _ => hq)]
    obtain ⟨p, hp⟩ := lookupP_isSome_of_mem_ids hk
    rw [hp]
    simp [lookupP_id hp]
  · rw [if_neg hk]
    show lookupP (reg ++ [q]) k = some q
    have h1 : List.find? (fun p => p.id = k) reg = none :=
      lookupP_none_of_not_mem_ids hk
    unfold lookupP
    rw [List.find?_append, h1]
    simp [hq]

theorem lookupP_setPerson_other (reg : List Person) (k k' : String) (q : Person)
    (hq : q.id = k) (hne : k' ≠ k) :
    lookupP (setPerson reg k q) k' = lookupP reg k' := by
  unfold setPerson
  by_cases hk : k ∈ idsOf reg
  · rw [if_pos hk]
    exact lookupP_updatePerson_other reg k k' (fun _ => q) (fun _ _ => hq) hne
  · rw [if_neg hk]
    show lookupP (reg ++ [q]) k' = lookupP reg k'
    unfold lookupP
    rw [List.find?_append]
    cases hfn : List.find? (fun p => p.id = k') reg with
    | some p => rfl
    | none =>
      simp only [Option.or]
      rw [List.find?_cons_of_neg _ (by simp [hq]; exact fun hc => hne hc.symm)]
      rfl

/-- `resolveIdentity` on a truthy anchor id resolves to the normalised id. -/
theorem resolveIdentity_anchor (reg : List Person) (r : Record)
    (ha : jsTruthy r.AnchorId = true) :
    (resolveIdentity reg r).2 = jsToString r.AnchorId := by
  unfold resolveIdentity
  rw [if_pos ha]
  by_cases hk : jsToString r.AnchorId ∈ idsOf reg
  · rw [if_pos hk]
  · rw [if_neg hk]

/-- `resolveIdentity` without an anchor reuses the first person with an
exactly matching name. -/
theorem resolveIdentity_name_found (reg : List Person) (r : Record)
    (ha : jsTruthy r.AnchorId = false) {q : Person}
    (hfind : reg.find? (fun p => p.name = r.Person) = some q) :
    resolveIdentity reg r = (reg, q.id) := by
  unfold resolveIdentity
  rw [if_neg (by simp [ha]), hfind]

/-- `resolveIdentity` without an anchor and without a name match creates
(or overwrites) the person keyed by the record's name. -/
theorem resolveIdentity_name_none (reg : List Person) (r : Record)
    (ha : jsTruthy r.AnchorId = false)
    (hfind : reg.find? (fun p => p.name = r.Person) = none) :
    resolveIdentity reg r =
      (setPerson reg r.Person (newPerson r.Person r.Person), r.Person) := by
  unfold resolveIdentity
  rw [if_neg (by simp [ha]), hfind]

/-- The resolved person after a full `ingestStep`: it keeps the name it had
at the identity stage and its event list is extended by exactly this
record's event. -/
theorem lookupP_ingestStep_pid (reg : List Person) (r : Record) (hP : r.Person ≠ "") :
    ∃ q, lookupP (resolveIdentity reg r).1 (resolveIdentity reg r).2 = some q ∧
    ∃ po, lookupP (ingestStep reg r) (resolveIdentity reg r).2 = some po ∧
      po.name = q.name ∧ po.events = q.events ++ [mkEvent r] := by
  obtain ⟨q, hq⟩ := lookupP_isSome_of_mem_ids (resolveIdentity_pid_mem reg r)
  have hpush : lookupP (pushEvent (resolveIdentity reg r).1 (resolveIdentity reg r).2 r)
      (resolveIdentity reg r).2 =
      some { q with events := q.events ++ [mkEvent r] } := by
    unfold pushEvent
    rw [lookupP_updatePerson_self (resolveIdentity reg r).1 (resolveIdentity reg r).2
      (fun p => { p with events := p.events ++ [mkEvent r] }) (fun p hp => hp), hq]
    simp [lookupP_id hq]
  rcases ingestStep_shape reg r hP with h | ⟨v, h⟩ <;> rw [h]
  · exact ⟨q, hq, _, hpush, rfl, rfl⟩
  · rw [lookupP_setParentId_self _ _ _ hpush]
    exact ⟨q, hq, _, rfl, rfl, rfl⟩

theorem evIn_resolveIdentity (reg : List Person) (r : Record) (k : String)
    (e : Event) (h : EvIn reg k e)
    (hsafe : jsTruthy r.AnchorId = true ∨ r.Person ≠ k) :
    EvIn (resolveIdentity reg r).1 k e := by
  obtain ⟨p, hp, he⟩ := h
  unfold resolveIdentity
  by_cases ha : jsTruthy r.AnchorId = true
  · rw [if_pos ha]
    by_cases hk : jsToString r.AnchorId ∈ idsOf reg
    · rw [if_pos hk]
      exact ⟨p, hp, he⟩
    · rw [if_neg hk]
      refine ⟨p, ?_, he⟩
      show lookupP (reg ++ _) k = some p
      unfold lookupP at *
      rw [List.find?_append, hp]
      rfl
  · rw [if_neg ha]
    have hkP : r.Person ≠ k := by
      rcases hsafe with h1 | h1
      · exact absurd h1 ha
      · exact h1
    cases hfind : reg.find? (fun p => p.name = r.Person) with
    | some q =>
      exact ⟨p, hp, he⟩
    | none =>
      refine ⟨p, ?_, he⟩
      show lookupP (setPerson reg r.Person (newPerson r.Person r.Person)) k = some p
      rw [lookupP_setPerson_other reg r.Person k _ rfl (fun hc => hkP hc.symm)]
      exact hp

theorem evIn_updatePerson (reg : List Person) (k' k : String) (f : Person → Person)
    (hf : ∀ p, p.id = k' → (f p).id = k')
    (hev : ∀ p, ∀ e ∈ p.events, e ∈ (f p).events)
    {e : Event} (h : EvIn reg k e) : EvIn (updatePerson reg k' f) k e := by
  obtain ⟨p, hp, he⟩ := h
  obtain ⟨p2, hp2, hsub⟩ := events_subset_updatePerson reg k' k f hf hev hp
  exact ⟨p2, hp2, hsub e he⟩

theorem evIn_ingestStep (reg : List Person) (r : Record) (k : String) (e : Event)
    (h : EvIn reg k e)
    (hsafe : jsTruthy r.AnchorId = true ∨ r.Person = "" ∨ r.Person ≠ k) :
    EvIn (ingestStep reg r) k e := by
  by_cases hP : r.Person = ""
  · rw [ingestStep_skip reg r hP]
    exact h
  · have hsafe2 : jsTruthy r.AnchorId = true ∨ r.Person ≠ k := by
      rcases hsafe with h1 | h1 | h1
      · exact Or.inl h1
      · exact absurd h1 hP
      · exact Or.inr h1
    have h1 : EvIn (resolveIdentity reg r).1 k e :=
      evIn_resolveIdentity reg r k e h hsafe2
    have h2 : EvIn (pushEvent (resolveIdentity reg r).1 (resolveIdentity reg r).2 r) k e := by
      unfold pushEvent
      exact evIn_updatePerson _ _ _
        (fun p => { p with events := p.events ++ [mkEvent r] })
        (fun p hp => hp) (fun p e2 he2 => List.mem_append_left _ he2) h1
    rcases ingestStep_shape reg r hP with hs | ⟨v, hs⟩ <;> rw [hs]
    · exact h2
    · unfold setParentId
      exact evIn_updatePerson _ _ _ (fun p => { p with parentId := some v })
        (fun p hp => hp) (fun p e2 he2 => he2) h2

theorem evIn_foldl (k : String) (e : Event) :
    ∀ (l : List Record) (reg : List Person), EvIn reg k e →
      (∀ r ∈ l, jsTruthy r.AnchorId = true ∨ r.Person = "" ∨ r.Person ≠ k) →
      EvIn (l.foldl ingestStep reg) k e := by
  intro l
  induction l with
  | nil => exact fun reg h _ => h
  | cons r t ih =>
    intro reg h hsafe
    exact ih (ingestStep reg r)
      (evIn_ingestStep reg r k e h (hsafe r (List.mem_cons_self r t)))
      (fun x hx => hsafe x (List.mem_cons_of_mem r hx))

theorem count_id_eq_one (reg : List Person) (k : String)
    (hnd : (idsOf reg).Nodup) (hk : k ∈ idsOf reg) :
    (reg.filter (fun p => p.id = k)).length = 1 := by
  induction reg with
  | nil => cases hk
  | cons a t ih =>
    rw [idsOf, List.map_cons, List.nodup_cons] at hnd
    by_cases ha : a.id = k
    · rw [List.filter_cons_of_pos (by simp [ha])]
      have htf : t.filter (fun p => p.id = k) = [] := by
        rw [List.filter_eq_nil_iff]
        intro p hp hpk
        simp only [decide_eq_true_eq] at hpk
        exact hnd.1 (ha ▸ hpk ▸ List.mem_map_of_mem _ hp)
      rw [htf]
      rfl
    · rw [List.filter_cons_of_neg (by simp [ha])]
      have hk2 : k ∈ idsOf t := by
        rcases List.mem_cons.mp hk with h | h
        · exact absurd h.symm ha
        · exact h
      exact ih hnd.2 hk2

/-- Concrete records for the C5 counterexample and witness. -/
def c5r1 : Record :=
  { Person := "A", AnchorId := .vstr "7", Ereignis := "Geburt", Datum := .vnull,
    Partner := "", PartnerGeburtTod := "", Eltern1 := "", Eltern2 := "",
    ParentId := .vnull }

def c5r2 : Record :=
  { c5r1 with Ereignis := "Tod" }

/-- An anchor-less record whose person is literally named `"7"`. -/
def c5rSab : Record :=
  { c5r1 with Person := "7", AnchorId := .vnull, Ereignis := "Heirat" }

def c5r3 : Record :=
  { c5r1 with Person := "Bob", AnchorId := .vnull, Ereignis := "Heirat" }

def c5r4 : Record :=
  { c5r1 with Person := "Carl", AnchorId := .vnull }

/-- C5 (counterexample): `c5r1` and `c5r2` share the anchor id `"7"`, but
with the anchor-less record `c5rSab` (person named `"7"`) between them,
`Map.set` in the name-keyed branch overwrites the person stored under `"7"`
together with its accumulated events: the final person carries `c5r2`'s
event but *not* `c5r1`'s, contradicting the claim's "one person carrying
both accumulated events". -/
theorem C5_counterexample :
    ∃ p, lookupP (pass1 [c5r1, c5rSab, c5r2]) "7" = some p ∧
      mkEvent c5r1 ∉ p.events ∧ mkEvent c5r2 ∈ p.events := by
  refine ⟨{ id := "7", name := "7",
            events := [mkEvent c5rSab, mkEvent c5r2],
            children := [], parentId := none }, by decide, by decide, by decide⟩

/-- C5 (amended): provided no anchor-less record (with a person name) is
named exactly the shared anchor-id string — such a record's `Map.set`
overwrites the person stored under that key, discarding its events — any
two records carrying a person name whose anchor ids string-normalise to the
same key produce exactly one person in the final registry, and that person
carries both records' events.  Identity otherwise resolves as the claim
says: a truthy anchor id is string-normalised; an anchor-less record reuses
the first person with exactly matching name (the registry keys are
unchanged and the event is appended to that person); otherwise a new person
keyed and named by the record's name is created and receives the event. -/
theorem C5_amended :
    (∀ (rs l1 l2 l3 : List Record) (r1 r2 : Record) (k : String),
       rs = l1 ++ r1 :: l2 ++ r2 :: l3 →
       r1.Person ≠ "" → r2.Person ≠ "" →
       jsTruthy r1.AnchorId = true → jsTruthy r2.AnchorId = true →
       jsToString r1.AnchorId = k → jsToString r2.AnchorId = k →
       (∀ r ∈ rs, jsTruthy r.AnchorId = true ∨ r.Person = "" ∨ r.Person ≠ k) →
       ((pass1 rs).filter (fun p => p.id = k)).length = 1 ∧
       ∃ p, lookupP (pass1 rs) k = some p ∧
         mkEvent r1 ∈ p.events ∧ mkEvent r2 ∈ p.events) ∧
    (∀ (reg : List Person) (r : Record), r.Person ≠ "" →
       jsTruthy r.AnchorId = false →
       (∀ q, reg.find? (fun p => p.name = r.Person) = some q →
          idsOf (ingestStep reg r) = idsOf reg ∧
          ∃ p, lookupP (ingestStep reg r) q.id = some p ∧ mkEvent r ∈ p.events) ∧
       (reg.find? (fun p => p.name = r.Person) = none →
          ∃ p, lookupP (ingestStep reg r) r.Person = some p ∧
            p.name = r.Person ∧ mkEvent r ∈ p.events)) := by
  constructor
  · intro rs l1 l2 l3 r1 r2 k hrs hP1 hP2 ha1 ha2 hk1 hk2 hsafe
    subst hrs
    have hsafe1 : ∀ r ∈ l1, jsTruthy r.AnchorId = true ∨ r.Person = "" ∨ r.Person ≠ k :=
      fun r hr => hsafe r (List.mem_append_left _ (List.mem_append_left _ hr))
    have hsafe2 : ∀ r ∈ l2, jsTruthy r.AnchorId = true ∨ r.Person = "" ∨ r.Person ≠ k :=
      fun r hr => hsafe r (List.mem_append_left _
        (List.mem_append_right _ (List.mem_cons_of_mem _ hr)))
    have hsafe3 : ∀ r ∈ l3, jsTruthy r.AnchorId = true ∨ r.Person = "" ∨ r.Person ≠ k :=
      fun r hr => hsafe r (List.mem_append_right _ (List.mem_cons_of_mem _ hr))
    have hfold : pass1 (l1 ++ r1 :: l2 ++ r2 :: l3) =
        l3.foldl ingestStep (ingestStep
          (l2.foldl ingestStep (ingestStep (l1.foldl ingestStep []) r1)) r2) := by
      unfold pass1
      simp only [List.foldl_append, List.foldl_cons]
    set regA := l1.foldl ingestStep [] with hregA
    set regB := ingestStep regA r1 with hregB
    set regC := l2.foldl ingestStep regB with hregC
    set regD := ingestStep regC r2 with hregD
    -- r1's event lands on key k
    have he1B : EvIn regB k (mkEvent r1) := by
      obtain ⟨q, hq, po, hpo, hname, hev⟩ := lookupP_ingestStep_pid regA r1 hP1
      rw [resolveIdentity_anchor regA r1 ha1, hk1] at hpo
      exact ⟨po, hpo, by rw [hev]; exact List.mem_append_right _ (List.mem_singleton.mpr rfl)⟩
    have he1C : EvIn regC k (mkEvent r1) := evIn_foldl k _ l2 regB he1B hsafe2
    have he1D : EvIn regD k (mkEvent r1) :=
      evIn_ingestStep regC r2 k _ he1C (Or.inl ha2)
    have he2D : EvIn regD k (mkEvent r2) := by
      obtain ⟨q, hq, po, hpo, hname, hev⟩ := lookupP_ingestStep_pid regC r2 hP2
      rw [resolveIdentity_anchor regC r2 ha2, hk2] at hpo
      exact ⟨po, hpo, by rw [hev]; exact List.mem_append_right _ (List.mem_singleton.mpr rfl)⟩
    have he1F : EvIn (l3.foldl ingestStep regD) k (mkEvent r1) :=
      evIn_foldl k _ l3 regD he1D hsafe3
    have he2F : EvIn (l3.foldl ingestStep regD) k (mkEvent r2) :=
      evIn_foldl k _ l3 regD he2D hsafe3
    rw [hfold]
    obtain ⟨p, hp, hpe1⟩ := he1F
    obtain ⟨p2, hp2, hpe2⟩ := he2F
    have hpp : p2 = p := by
      rw [hp] at hp2
      exact (Option.some_inj.mp hp2).symm
    constructor
    · have hnodup : (idsOf (l3.foldl ingestStep regD)).Nodup := by
        rw [hregD, hregC, hregB, hregA]
        have h0 : (idsOf ([] : List Person)).Nodup := List.nodup_nil
        exact nodup_idsOf_foldl l3 _ (nodup_ids_ingestStep _ _
          (nodup_idsOf_foldl l2 _ (nodup_ids_ingestStep _ _
            (nodup_idsOf_foldl l1 _ h0))))
      exact count_id_eq_one _ k hnodup (mem_ids_of_lookupP hp)
    · exact ⟨p, hp, hpe1, hpp ▸ hpe2⟩
  · intro reg r hP ha
    constructor
    · intro q hfind
      have hres := resolveIdentity_name_found reg r ha hfind
      constructor
      · rw [idsOf_ingestStep reg r hP, hres]
      · obtain ⟨q2, hq2, po, hpo, hname, hev⟩ := lookupP_ingestStep_pid reg r hP
        rw [hres] at hpo
        exact ⟨po, hpo, by
          rw [hev]
          exact List.mem_append_right _ (List.mem_singleton.mpr rfl)⟩
    · intro hfind
      have hres := resolveIdentity_name_none reg r ha hfind
      obtain ⟨q2, hq2, po, hpo, hname, hev⟩ := lookupP_ingestStep_pid reg r hP
      rw [hres] at hq2 hpo
      have hq2' : q2 = newPerson r.Person r.Person := by
        rw [lookupP_setPerson_self reg r.Person _ rfl] at hq2
        exact Option.some_inj.mp hq2.symm
      refine ⟨po, hpo, ?_, ?_⟩
      · rw [hname, hq2']
        rfl
      · rw [hev]
        exact List.mem_append_right _ (List.mem_singleton.mpr rfl)

/-- C5 (witness): two records sharing anchor `"7"` (no interfering record)
produce one person with both events; an anchor-less record named "Bob"
lands on the existing person `B`; an anchor-less record named "Carl"
creates a new person keyed "Carl". -/
theorem C5_witness :
    (((pass1 [c5r1, c5r2]).filter (fun p => p.id = "7")).length = 1 ∧
     ∃ p, lookupP (pass1 [c5r1, c5r2]) "7" = some p ∧
       mkEvent c5r1 ∈ p.events ∧ mkEvent c5r2 ∈ p.events) ∧
    (idsOf (ingestStep [newPerson "B" "Bob"] c5r3) = idsOf [newPerson "B" "Bob"] ∧
     ∃ p, lookupP (ingestStep [newPerson "B" "Bob"] c5r3)
        (newPerson "B" "Bob").id = some p ∧ mkEvent c5r3 ∈ p.events) ∧
    (∃ p, lookupP (ingestStep [newPerson "B" "Bob"] c5r4) "Carl" = some p ∧
       p.name = "Carl" ∧ mkEvent c5r4 ∈ p.events) := by
  refine ⟨?_, ?_, ?_⟩
  · exact C5_amended.1 [c5r1, c5r2] [] [] [] c5r1 c5r2 "7" rfl (by decide) (by decide)
      (by decide) (by decide) (by decide) (by decide) (by decide)
  · exact (C5_amended.2 [newPerson "B" "Bob"] c5r3 (by decide) (by decide)).1
      (newPerson "B" "Bob") (by decide)
  · have h := (C5_amended.2 [newPerson "B" "Bob"] c5r4 (by decide) (by decide)).2
      (by decide)
    simpa using h

/-! ### C8: ordering of the assembled children lists -/

/-- The comparator of `sortChildren` as a named function. -/
def childLE (reg : List Person) : String → String → Bool :=
  fun a b => childCmp reg a b ≤ 0

/-- The order the children comparator actually enforces: whenever the right
child has a known birth year, the left child has a known year that is not
larger.  `Pairwise (knownLE reg)` is exactly "non-decreasing by birth year
with every unknown-birth child after every known-birth one". -/
def knownLE (reg : List Person) (a b : String) : Prop :=
  ∀ yb, birthTId reg b = some yb → ∃ ya, birthTId reg a = some ya ∧ ya ≤ yb

/-- A child whose birth year cannot be determined. -/
def unknownChild (reg : List Person) (c : String) : Bool :=
  (birthTId reg c).isNone

theorem insertLE_nil {α : Type} (le : α → α → Bool) (x : α) :
    insertLE le x [] = [x] := rfl

theorem insertLE_cons {α : Type} (le : α → α → Bool) (x y : α) (ys : List α) :
    insertLE le x (y :: ys) =
      if le y x then y :: insertLE le x ys else x :: y :: ys := rfl

theorem childCmp_le_cases (reg : List Person) (a b : String)
    (h : childCmp reg a b ≤ 0) :
    ∃ ya, birthTId reg a = some ya ∧
      ∀ yb, birthTId reg b = some yb → ya ≤ yb := by
  rcases (birthTId reg a).eq_none_or_eq_some with ha | ⟨ya, ha⟩
  · exfalso
    simp only [childCmp, ha] at h
    norm_num at h
  · refine ⟨ya, ha, fun yb hb => ?_⟩
    simp only [childCmp, ha, hb] at h
    omega

theorem childCmp_pos_cases (reg : List Person) (a b : String)
    (h : ¬ childCmp reg a b ≤ 0) :
    birthTId reg a = none ∨
      ∃ ya yb, birthTId reg a = some ya ∧ birthTId reg b = some yb ∧ yb < ya := by
  rcases (birthTId reg a).eq_none_or_eq_some with ha | ⟨ya, ha⟩
  · exact Or.inl ha
  · rcases (birthTId reg b).eq_none_or_eq_some with hb | ⟨yb, hb⟩
    · exfalso
      simp only [childCmp, ha, hb] at h
      norm_num at h
    · refine Or.inr ⟨ya, yb, ha, hb, ?_⟩
      simp only [childCmp, ha, hb] at h
      omega

theorem mem_insertLE {α : Type} (le : α → α → Bool) (x z : α) (l : List α)
    (hz : z ∈ insertLE le x l) : z = x ∨ z ∈ l := by
  induction l with
  | nil =>
    rw [insertLE_nil] at hz
    exact Or.inl (List.mem_singleton.mp hz)
  | cons y ys ih =>
    rw [insertLE_cons] at hz
    cases hle : le y x with
    | true =>
      rw [hle, if_pos rfl] at hz
      rcases List.mem_cons.mp hz with rfl | hz2
      · exact Or.inr (List.mem_cons_self _ _)
      · rcases ih hz2 with h1 | h2
        · exact Or.inl h1
        · exact Or.inr (List.mem_cons_of_mem _ h2)
    | false =>
      rw [hle, if_neg Bool.false_ne_true] at hz
      rcases List.mem_cons.mp hz with rfl | hz2
      · exact Or.inl rfl
      · exact Or.inr hz2

theorem insertLE_knownLE (reg : List Person) (x : String) (l : List String)
    (hl : l.Pairwise (knownLE reg)) :
    (insertLE (childLE reg) x l).Pairwise (knownLE reg) := by
  induction l with
  | nil =>
    rw [insertLE_nil]
    exact List.pairwise_singleton _ _
  | cons y ys ih =>
    rcases List.pairwise_cons.mp hl with ⟨hy, hys⟩
    rw [insertLE_cons]
    by_cases hle : childCmp reg y x ≤ 0
    · rw [if_pos (show childLE reg y x = true from decide_eq_true hle)]
      refine List.Pairwise.cons ?_ (ih hys)
      intro z hz
      rcases mem_insertLE _ _ _ _ hz with rfl | hz2
      · obtain ⟨yy, hyy, hmin⟩ := childCmp_le_cases reg y _ hle
        exact fun yx hyx => ⟨yy, hyy, hmin yx hyx⟩
      · exact hy z hz2
    · rw [if_neg (show ¬ childLE reg y x = true from
        fun h => hle (of_decide_eq_true h))]
      refine List.Pairwise.cons ?_ (List.Pairwise.cons hy hys)
      intro z hz
      rcases childCmp_pos_cases reg y x hle with hnone | ⟨yy, yx, hyy, hyx, hlt⟩
      · intro yz hyz
        exfalso
        rcases List.mem_cons.mp hz with rfl | hz2
        · rw [hnone] at hyz
          exact Option.noConfusion hyz
        · obtain ⟨ya, hya, _⟩ := hy z hz2 yz hyz
          rw [hnone] at hya
          exact Option.noConfusion hya
      · intro yz hyz
        rcases List.mem_cons.mp hz with rfl | hz2
        · rw [hyy] at hyz
          exact ⟨yx, hyx, le_of_lt (Option.some_inj.mp hyz ▸ hlt)⟩
        · obtain ⟨ya, hya, hle2⟩ := hy z hz2 yz hyz
          rw [hyy] at hya
          exact ⟨yx, hyx,
            le_of_lt (lt_of_lt_of_le hlt ((Option.some_inj.mp hya) ▸ hle2))⟩

theorem foldl_insert_pairwise (reg : List Person) :
    ∀ (l acc : List String), acc.Pairwise (knownLE reg) →
      (l.foldl (fun a x => insertLE (childLE reg) x a) acc).Pairwise (knownLE reg) := by
  intro l
  induction l with
  | nil => exact fun acc h => h
  | cons x xs ih =>
    intro acc h
    rw [List.foldl_cons]
    exact ih _ (insertLE_knownLE reg x acc h)

theorem sortChildren_pairwise (reg : List Person) (kids : List String) :
    (sortChildren reg kids).Pairwise (knownLE reg) :=
  foldl_insert_pairwise reg kids [] List.Pairwise.nil

theorem insertLE_filter_unknown (reg : List Person) (x : String) (l : List String) :
    (insertLE (childLE reg) x l).filter (unknownChild reg) =
      if unknownChild reg x
      then x :: l.filter (unknownChild reg)
      else l.filter (unknownChild reg) := by
  induction l with
  | nil =>
    rw [insertLE_nil]
    cases hx : unknownChild reg x
    · rw [if_neg Bool.false_ne_true, List.filter_cons_of_neg (by simp [hx]),
        List.filter_nil]
    · rw [if_pos rfl, List.filter_cons_of_pos (by simp [hx]), List.filter_nil]
  | cons y ys ih =>
    rw [insertLE_cons]
    by_cases hle : childCmp reg y x ≤ 0
    · rw [if_pos (show childLE reg y x = true from decide_eq_true hle)]
      obtain ⟨yy, hyy, _⟩ := childCmp_le_cases reg y x hle
      have hyB : ¬ unknownChild reg y = true := by simp [unknownChild, hyy]
      rw [List.filter_cons_of_neg hyB, ih, List.filter_cons_of_neg hyB]
    · rw [if_neg (show ¬ childLE reg y x = true from
        fun h => hle (of_decide_eq_true h))]
      cases hx : unknownChild reg x
      · rw [if_neg Bool.false_ne_true, List.filter_cons_of_neg (by simp [hx])]
      · rw [if_pos rfl, List.filter_cons_of_pos (by simp [hx])]

theorem foldl_insert_filter_unknown (reg : List Person) :
    ∀ (l acc : List String),
      ((l.foldl (fun a x => insertLE (childLE reg) x a) acc).filter (unknownChild reg)) =
        (l.filter (unknownChild reg)).reverse ++ acc.filter (unknownChild reg) := by
  intro l
  induction l with
  | nil =>
    intro acc
    rw [List.foldl_nil, List.filter_nil, List.reverse_nil, List.nil_append]
  | cons x xs ih =>
    intro acc
    rw [List.foldl_cons, ih, insertLE_filter_unknown]
    cases hx : unknownChild reg x
    · rw [if_neg Bool.false_ne_true, List.filter_cons_of_neg (by simp [hx])]
    · rw [if_pos rfl, List.filter_cons_of_pos (by simp [hx])]
      simp [List.append_assoc]

theorem sortChildren_filter_unknown (reg : List Person) (kids : List String) :
    (sortChildren reg kids).filter (unknownChild reg) =
      (kids.filter (unknownChild reg)).reverse := by
  have h := foldl_insert_filter_unknown reg kids []
  rw [List.filter_nil, List.append_nil] at h
  exact h

theorem insertLE_perm {α : Type} (le : α → α → Bool) (x : α) (l : List α) :
    (insertLE le x l).Perm (x :: l) := by
  induction l with
  | nil =>
    rw [insertLE_nil]
  | cons y ys ih =>
    rw [insertLE_cons]
    cases hle : le y x with
    | false =>
      rw [if_neg Bool.false_ne_true]
    | true =>
      rw [if_pos rfl]
      exact (List.Perm.cons y ih).trans (List.Perm.swap x y ys)

theorem foldl_insert_perm {α : Type} (le : α → α → Bool) :
    ∀ (l acc : List α),
      (l.foldl (fun a x => insertLE le x a) acc).Perm (acc ++ l) := by
  intro l
  induction l with
  | nil =>
    intro acc
    rw [List.foldl_nil, List.append_nil]
  | cons x xs ih =>
    intro acc
    rw [List.foldl_cons]
    have h1 := ih (insertLE le x acc)
    have h2 : (insertLE le x acc ++ xs).Perm ((x :: acc) ++ xs) :=
      (insertLE_perm le x acc).append_right xs
    exact (h1.trans h2).trans List.perm_middle.symm

theorem sortChildren_perm (reg : List Person) (kids : List String) :
    (sortChildren reg kids).Perm kids := by
  have h := foldl_insert_perm (childLE reg) kids []
  rw [List.nil_append] at h
  exact h

def c8rp : Record :=
  { Person := "Papa", AnchorId := .vstr "P", Ereignis := "Geburt", Datum := .vnull,
    Partner := "", PartnerGeburtTod := "", Eltern1 := "", Eltern2 := "",
    ParentId := .vnull }

def c8r1 : Record :=
  { Person := "Karl", AnchorId := .vstr "C1", Ereignis := "Geburt", Datum := .vnull,
    Partner := "", PartnerGeburtTod := "", Eltern1 := "", Eltern2 := "",
    ParentId := .vstr "P" }

def c8r2 : Record :=
  { Person := "Lena", AnchorId := .vstr "C2", Ereignis := "Geburt", Datum := .vnull,
    Partner := "", PartnerGeburtTod := "", Eltern1 := "", Eltern2 := "",
    ParentId := .vstr "P" }

/-- The children comparator answers `1` ("current element sorts after") on
every pair of unknown-birth children — in BOTH directions, so it is not a
consistent comparator on any list holding two such children, and
ECMAScript leaves `Array.prototype.sort`'s resulting order
implementation-defined there. -/
theorem childCmp_unknown_both (reg : List Person) (a b : String)
    (ha : birthTId reg a = none) (hb : birthTId reg b = none) :
    childCmp reg a b = 1 ∧ childCmp reg b a = 1 :=
  ⟨by simp only [childCmp, ha], by simp only [childCmp, hb]⟩

theorem reverse_eq_self_of_length_le_one {α : Type} (l : List α)
    (h : l.length ≤ 1) : l.reverse = l := by
  cases l with
  | nil => rfl
  | cons x xs =>
    cases xs with
    | nil => rfl
    | cons y ys =>
      simp only [List.length_cons] at h
      omega

/-- C8 (counterexample): two unknown-birth siblings, discovered as `C1`
then `C2`.  Sorting the parent's children `["C1", "C2"]` invokes the
comparator on this pair, and it returns `1` in BOTH directions — an
inconsistent comparator, for which ECMAScript leaves the sorted order
implementation-defined (and conforming engines disagree on this very
input), so the claim's guarantee that the discovery order of
unknown-birth ties is preserved is not a property of the program. -/
theorem C8_counterexample :
    (∃ q ∈ pass2 (pass1 [c8rp, c8r1, c8r2]), q.id = "P" ∧ q.children = ["C1", "C2"]) ∧
    birthTId (pass2 (pass1 [c8rp, c8r1, c8r2])) "C1" = none ∧
    birthTId (pass2 (pass1 [c8rp, c8r1, c8r2])) "C2" = none ∧
    childCmp (pass2 (pass1 [c8rp, c8r1, c8r2])) "C1" "C2" = 1 ∧
    childCmp (pass2 (pass1 [c8rp, c8r1, c8r2])) "C2" "C1" = 1 := by
  decide

/-- C8 (amended): after assembly every person is its linking-pass precursor
with the children list run through the sort, and the resulting children are
a permutation of the discovery order.  Whenever at most one child lacks a
determinable birth year the comparator is a consistent comparator on the
list, ECMAScript then mandates the stable sorted result the model computes,
and the children come out pairwise `knownLE`-ordered — non-decreasing by
birth year, every unknown-birth child after every known-birth one — with
the unknown-birth sublist (at most one element) keeping its discovery
order.  With two or more unknown-birth children the comparator is
inconsistent (`childCmp_unknown_both`) and the program guarantees no
definite order. -/
theorem C8_amended (records : List Record) (p : Person)
    (hp : p ∈ famAssemble records) :
    ∃ q ∈ pass2 (pass1 records),
      p = { q with children := sortChildren (pass2 (pass1 records)) q.children } ∧
      p.children.Perm q.children ∧
      ((q.children.filter (unknownChild (pass2 (pass1 records)))).length ≤ 1 →
        List.Pairwise (knownLE (pass2 (pass1 records))) p.children ∧
        p.children.filter (unknownChild (pass2 (pass1 records))) =
          q.children.filter (unknownChild (pass2 (pass1 records)))) := by
  have hp' : p ∈ (pass2 (pass1 records)).map
      (fun q => { q with
        children := sortChildren (pass2 (pass1 records)) q.children }) := hp
  obtain ⟨q, hq, hpq⟩ := List.mem_map.mp hp'
  subst hpq
  refine ⟨q, hq, rfl, sortChildren_perm _ _, fun hlen => ?_⟩
  refine ⟨sortChildren_pairwise _ _, ?_⟩
  rw [sortChildren_filter_unknown]
  exact reverse_eq_self_of_length_le_one _ hlen

def c8w1 : Record :=
  { Person := "Karl", AnchorId := .vstr "C1", Ereignis := "Geburt",
    Datum := .vnum 1950, Partner := "", PartnerGeburtTod := "", Eltern1 := "",
    Eltern2 := "", ParentId := .vstr "P" }

def c8w2 : Record :=
  { Person := "Mia", AnchorId := .vstr "C3", Ereignis := "Geburt",
    Datum := .vnum 1940, Partner := "", PartnerGeburtTod := "", Eltern1 := "",
    Eltern2 := "", ParentId := .vstr "P" }

/-- The parent person as assembly produces it from
`[c8rp, c8w1, c8r2, c8w2]`: children sorted `1940`, `1950`, unknown. -/
def c8p : Person :=
  { id := "P", name := "Papa",
    events := [{ type := "Geburt", date := "", partner := "",
                 partnerBirthDeath := "", parent1 := "", parent2 := "" }],
    children := ["C3", "C1", "C2"], parentId := none }

/-- The four persons of the witness registry as the linking pass leaves
them (before the children sort). -/
def c8q : Person :=
  { id := "P", name := "Papa",
    events := [{ type := "Geburt", date := "", partner := "",
                 partnerBirthDeath := "", parent1 := "", parent2 := "" }],
    children := ["C1", "C2", "C3"], parentId := none }

def c8c1 : Person :=
  { id := "C1", name := "Karl",
    events := [{ type := "Geburt", date := "1950", partner := "",
                 partnerBirthDeath := "", parent1 := "", parent2 := "" }],
    children := [], parentId := some "P" }

def c8c2 : Person :=
  { id := "C2", name := "Lena",
    events := [{ type := "Geburt", date := "", partner := "",
                 partnerBirthDeath := "", parent1 := "", parent2 := "" }],
    children := [], parentId := some "P" }

def c8c3 : Person :=
  { id := "C3", name := "Mia",
    events := [{ type := "Geburt", date := "1940", partner := "",
                 partnerBirthDeath := "", parent1 := "", parent2 := "" }],
    children := [], parentId := some "P" }

/-- C8 (witness): the amended theorem applied to a concrete family with a
single unknown-birth child — births 1950 (`C1`), unknown (`C2`), 1940
(`C3`), discovered in that order — whose assembled parent carries children
`["C3", "C1", "C2"]`: sorted by year, the one unknown last, the
unknown-birth sublist `["C2"]` in discovery order. -/
theorem C8_witness :
    c8p.children = ["C3", "C1", "C2"] ∧
    List.Pairwise (knownLE (pass2 (pass1 [c8rp, c8w1, c8r2, c8w2]))) c8p.children ∧
    c8p.children.filter (unknownChild (pass2 (pass1 [c8rp, c8w1, c8r2, c8w2]))) =
      ["C2"] := by
  obtain ⟨q, hq, hpq, hperm, himp⟩ :=
    C8_amended [c8rp, c8w1, c8r2, c8w2] c8p (by decide)
  have hqid : q.id = "P" := (congrArg Person.id hpq).symm
  have hlist : pass2 (pass1 [c8rp, c8w1, c8r2, c8w2]) = [c8q, c8c1, c8c2, c8c3] := by
    decide
  rw [hlist] at hq
  simp only [List.mem_cons, List.not_mem_nil, or_false] at hq
  rcases hq with rfl | rfl | rfl | rfl
  · have hlen : (c8q.children.filter
        (unknownChild (pass2 (pass1 [c8rp, c8w1, c8r2, c8w2])))).length ≤ 1 := by
      decide
    obtain ⟨hpw, hfil⟩ := himp hlen
    refine ⟨rfl, hpw, ?_⟩
    rw [hfil]
    decide
  · exact absurd hqid (by decide)
  · exact absurd hqid (by decide)
  · exact absurd hqid (by decide)

/-! ### C9: ranking order of the search results -/

theorem ordCmp_lt_iff (a b : ℕ) : ordCmp a b = .lt ↔ a < b := by
  unfold ordCmp
  split_ifs with h1 h2
  · exact iff_of_true rfl h1
  · exact iff_of_false (by simp) h1
  · exact iff_of_false (by simp) h1

theorem ordCmp_eq_iff (a b : ℕ) : ordCmp a b = .eq ↔ a = b := by
  unfold ordCmp
  split_ifs with h1 h2
  · exact iff_of_false (by simp) (by omega)
  · exact iff_of_false (by simp) (by omega)
  · exact iff_of_true rfl (by omega)

theorem lexCmp_swap (as : List Char) :
    ∀ bs, lexCmp bs as = (lexCmp as bs).swap := by
  induction as with
  | nil =>
    intro bs
    cases bs <;> rfl
  | cons a as ih =>
    intro bs
    cases bs with
    | nil => rfl
    | cons b bs =>
      show (match ordCmp b.toNat a.toNat with
            | .eq => lexCmp bs as
            | o => o) =
          (match ordCmp a.toNat b.toNat with
            | .eq => lexCmp as bs
            | o => o).swap
      have hsw : ordCmp b.toNat a.toNat = (ordCmp a.toNat b.toNat).swap := by
        unfold ordCmp
        split_ifs <;> first | rfl | omega
      rw [hsw]
      cases hc : ordCmp a.toNat b.toNat with
      | lt => rfl
      | gt => rfl
      | eq => exact ih bs

theorem lexCmp_eq_iff (as : List Char) :
    ∀ bs, lexCmp as bs = .eq ↔ as = bs := by
  induction as with
  | nil =>
    intro bs
    cases bs with
    | nil => simp [lexCmp]
    | cons b bs => simp [lexCmp]
  | cons a as ih =>
    intro bs
    cases bs with
    | nil => simp [lexCmp]
    | cons b bs =>
      show (match ordCmp a.toNat b.toNat with
            | .eq => lexCmp as bs
            | o => o) = .eq ↔ a :: as = b :: bs
      cases hc : ordCmp a.toNat b.toNat with
      | lt =>
        refine iff_of_false (by simp) ?_
        intro hcon
        rw [List.cons.injEq] at hcon
        rw [hcon.1, (ordCmp_eq_iff _ _).mpr rfl] at hc
        exact Ordering.noConfusion hc
      | gt =>
        refine iff_of_false (by simp) ?_
        intro hcon
        rw [List.cons.injEq] at hcon
        rw [hcon.1, (ordCmp_eq_iff _ _).mpr rfl] at hc
        exact Ordering.noConfusion hc
      | eq =>
        have hab : a = b := Char.ext (UInt32.ext ((ordCmp_eq_iff _ _).mp hc))
        rw [ih bs, List.cons.injEq]
        simp [hab]

theorem lexCmp_lt_trans (as : List Char) :
    ∀ bs cs, lexCmp as bs = .lt → lexCmp bs cs = .lt → lexCmp as cs = .lt := by
  induction as with
  | nil =>
    intro bs cs h1 h2
    cases bs with
    | nil => exact absurd h1 (by simp [lexCmp])
    | cons b bs =>
      cases cs with
      | nil => exact absurd h2 (by simp [lexCmp])
      | cons c cs => rfl
  | cons a as ih =>
    intro bs cs h1 h2
    cases bs with
    | nil => exact absurd h1 (by simp [lexCmp])
    | cons b bs =>
      cases cs with
      | nil => exact absurd h2 (by simp [lexCmp])
      | cons c cs =>
        have h1' : (match ordCmp a.toNat b.toNat with
            | .eq => lexCmp as bs
            | o => o) = .lt := h1
        have h2' : (match ordCmp b.toNat c.toNat with
            | .eq => lexCmp bs cs
            | o => o) = .lt := h2
        show (match ordCmp a.toNat c.toNat with
            | .eq => lexCmp as cs
            | o => o) = .lt
        cases hab : ordCmp a.toNat b.toNat with
        | gt =>
          rw [hab] at h1'
          exact absurd h1' (by simp)
        | lt =>
          cases hbc : ordCmp b.toNat c.toNat with
          | gt =>
            rw [hbc] at h2'
            exact absurd h2' (by simp)
          | lt =>
            have hac : ordCmp a.toNat c.toNat = .lt := (ordCmp_lt_iff _ _).mpr
              (lt_trans ((ordCmp_lt_iff _ _).mp hab) ((ordCmp_lt_iff _ _).mp hbc))
            rw [hac]
          | eq =>
            have hac : ordCmp a.toNat c.toNat = .lt := (ordCmp_lt_iff _ _).mpr
              (((ordCmp_eq_iff _ _).mp hbc) ▸ ((ordCmp_lt_iff _ _).mp hab))
            rw [hac]
        | eq =>
          rw [hab] at h1'
          cases hbc : ordCmp b.toNat c.toNat with
          | gt =>
            rw [hbc] at h2'
            exact absurd h2' (by simp)
          | lt =>
            have hac : ordCmp a.toNat c.toNat = .lt := (ordCmp_lt_iff _ _).mpr
              (((ordCmp_eq_iff _ _).mp hab) ▸ ((ordCmp_lt_iff _ _).mp hbc))
            rw [hac]
          | eq =>
            rw [hbc] at h2'
            have hac : ordCmp a.toNat c.toNat = .eq := (ordCmp_eq_iff _ _).mpr
              (((ordCmp_eq_iff _ _).mp hab).trans ((ordCmp_eq_iff _ _).mp hbc))
            rw [hac]
            exact ih bs cs h1' h2'

theorem localeCmp_swap (a b : String) : localeCmp b a = (localeCmp a b).swap := by
  unfold localeCmp
  rw [lexCmp_swap (lowerS a).toList (lowerS b).toList]
  cases hc : lexCmp (lowerS a).toList (lowerS b).toList with
  | lt => rfl
  | gt => rfl
  | eq => exact lexCmp_swap a.toList b.toList

theorem localeCmp_eq_iff (a b : String) : localeCmp a b = .eq ↔ a = b := by
  unfold localeCmp
  cases hc : lexCmp (lowerS a).toList (lowerS b).toList with
  | lt =>
    refine iff_of_false (by simp) ?_
    intro h
    rw [h, (lexCmp_eq_iff _ _).mpr rfl] at hc
    exact Ordering.noConfusion hc
  | gt =>
    refine iff_of_false (by simp) ?_
    intro h
    rw [h, (lexCmp_eq_iff _ _).mpr rfl] at hc
    exact Ordering.noConfusion hc
  | eq =>
    rw [lexCmp_eq_iff]
    exact ⟨fun h => String.ext h, fun h => by rw [h]⟩

theorem localeCmp_lt_trans (a b c : String) (h1 : localeCmp a b = .lt)
    (h2 : localeCmp b c = .lt) : localeCmp a c = .lt := by
  unfold localeCmp at h1 h2 ⊢
  cases hab : lexCmp (lowerS a).toList (lowerS b).toList with
  | gt =>
    rw [hab] at h1
    exact absurd h1 (by simp)
  | lt =>
    rw [hab] at h1
    cases hbc : lexCmp (lowerS b).toList (lowerS c).toList with
    | gt =>
      rw [hbc] at h2
      exact absurd h2 (by simp)
    | lt =>
      rw [lexCmp_lt_trans _ _ _ hab hbc]
    | eq =>
      have hl : (lowerS b).toList = (lowerS c).toList := (lexCmp_eq_iff _ _).mp hbc
      rw [← hl, hab]
  | eq =>
    rw [hab] at h1
    have hl : (lowerS a).toList = (lowerS b).toList := (lexCmp_eq_iff _ _).mp hab
    cases hbc : lexCmp (lowerS b).toList (lowerS c).toList with
    | gt =>
      rw [hbc] at h2
      exact absurd h2 (by simp)
    | lt =>
      rw [hl, hbc]
    | eq =>
      rw [hbc] at h2
      have hl2 : (lowerS b).toList = (lowerS c).toList := (lexCmp_eq_iff _ _).mp hbc
      rw [hl, hl2, (lexCmp_eq_iff _ _).mpr rfl]
      exact lexCmp_lt_trans _ _ _ h1 h2

theorem localeCmp_le_trans (a b c : String) (h1 : localeCmp a b ≠ .gt)
    (h2 : localeCmp b c ≠ .gt) : localeCmp a c ≠ .gt := by
  cases hab : localeCmp a b with
  | gt => exact absurd hab h1
  | eq =>
    have : a = b := (localeCmp_eq_iff _ _).mp hab
    rw [this]
    exact h2
  | lt =>
    cases hbc : localeCmp b c with
    | gt => exact absurd hbc h2
    | eq =>
      have : b = c := (localeCmp_eq_iff _ _).mp hbc
      rw [← this, hab]
      simp
    | lt =>
      rw [localeCmp_lt_trans a b c hab hbc]
      simp

theorem searchCmp_swap (query : String) (a b : SearchMatch) :
    searchCmp query b a = (searchCmp query a b).swap := by
  unfold searchCmp
  cases hra : a.matchReason <;> cases hrb : b.matchReason
  · by_cases ha : ciStartsWith a.person.name query = true <;>
      by_cases hb : ciStartsWith b.person.name query = true
    · simp [ha, hb]
      exact localeCmp_swap _ _
    · simp [ha, hb, Ordering.swap]
    · simp [ha, hb, Ordering.swap]
    · simp [ha, hb]
      exact localeCmp_swap _ _
  · rfl
  · rfl
  · by_cases ha : ciStartsWith a.person.name query = true <;>
      by_cases hb : ciStartsWith b.person.name query = true
    · simp [ha, hb]
      exact localeCmp_swap _ _
    · simp [ha, hb, Ordering.swap]
    · simp [ha, hb, Ordering.swap]
    · simp [ha, hb]
      exact localeCmp_swap _ _

theorem searchCmp_ne_gt_iff (query : String) (a b : SearchMatch) :
    searchCmp query a b ≠ .gt ↔
      (a.matchReason = .name ∧ b.matchReason = .spouse) ∨
      (a.matchReason = b.matchReason ∧
        ((ciStartsWith a.person.name query = true ∧
            ciStartsWith b.person.name query = false) ∨
         (ciStartsWith a.person.name query = ciStartsWith b.person.name query ∧
            localeCmp a.person.name b.person.name ≠ .gt))) := by
  unfold searchCmp
  cases hra : a.matchReason <;> cases hrb : b.matchReason
  · by_cases ha : ciStartsWith a.person.name query = true <;>
      by_cases hb : ciStartsWith b.person.name query = true <;>
        simp [ha, hb]
  · simp
  · simp
  · by_cases ha : ciStartsWith a.person.name query = true <;>
      by_cases hb : ciStartsWith b.person.name query = true <;>
        simp [ha, hb]

theorem searchCmp_le_trans (query : String) (a b c : SearchMatch)
    (h1 : searchCmp query a b ≠ .gt) (h2 : searchCmp query b c ≠ .gt) :
    searchCmp query a c ≠ .gt := by
  rw [searchCmp_ne_gt_iff] at h1 h2 ⊢
  rcases h1 with ⟨ha1, hb1⟩ | ⟨hr1, hf1⟩
  · rcases h2 with ⟨hb2, _⟩ | ⟨hr2, _⟩
    · rw [hb1] at hb2
      exact absurd hb2 (by simp)
    · exact Or.inl ⟨ha1, hr2 ▸ hb1⟩
  · rcases h2 with ⟨hb2, hc2⟩ | ⟨hr2, hf2⟩
    · exact Or.inl ⟨hr1 ▸ hb2, hc2⟩
    · refine Or.inr ⟨hr1.trans hr2, ?_⟩
      rcases hf1 with ⟨haT, hbF⟩ | ⟨hfe1, hloc1⟩
      · rcases hf2 with ⟨hbT, _⟩ | ⟨hfe2, _⟩
        · rw [hbF] at hbT
          exact absurd hbT (by simp)
        · exact Or.inl ⟨haT, hfe2 ▸ hbF⟩
      · rcases hf2 with ⟨hbT, hcF⟩ | ⟨hfe2, hloc2⟩
        · exact Or.inl ⟨hfe1.trans hbT, hcF⟩
        · exact Or.inr ⟨hfe1.trans hfe2,
            localeCmp_le_trans _ _ _ hloc1 hloc2⟩

theorem insertLE_pairwise {α : Type} (le : α → α → Bool)
    (htotal : ∀ a b, le a b = false → le b a = true)
    (htrans : ∀ a b c, le a b = true → le b c = true → le a c = true)
    (x : α) (l : List α) (hl : l.Pairwise (fun a b => le a b = true)) :
    (insertLE le x l).Pairwise (fun a b => le a b = true) := by
  induction l with
  | nil =>
    rw [insertLE_nil]
    exact List.pairwise_singleton _ _
  | cons y ys ih =>
    rcases List.pairwise_cons.mp hl with ⟨hy, hys⟩
    rw [insertLE_cons]
    cases hle : le y x with
    | true =>
      rw [if_pos rfl]
      refine List.Pairwise.cons ?_ (ih hys)
      intro z hz
      rcases mem_insertLE _ _ _ _ hz with rfl | hz2
      · exact hle
      · exact hy z hz2
    | false =>
      rw [if_neg Bool.false_ne_true]
      refine List.Pairwise.cons ?_ (List.Pairwise.cons hy hys)
      intro z hz
      have hxy : le x y = true := htotal y x hle
      rcases List.mem_cons.mp hz with rfl | hz2
      · exact hxy
      · exact htrans x y z hxy (hy z hz2)

theorem jsSort_pairwise {α : Type} (le : α → α → Bool)
    (htotal : ∀ a b, le a b = false → le b a = true)
    (htrans : ∀ a b c, le a b = true → le b c = true → le a c = true)
    (l : List α) : (jsSort le l).Pairwise (fun a b => le a b = true) := by
  suffices h : ∀ (l' acc : List α), acc.Pairwise (fun a b => le a b = true) →
      (l'.foldl (fun a x => insertLE le x a) acc).Pairwise
        (fun a b => le a b = true) from h l [] List.Pairwise.nil
  intro l'
  induction l' with
  | nil => exact fun acc h => h
  | cons x xs ih =>
    intro acc h
    rw [List.foldl_cons]
    exact ih _ (insertLE_pairwise le htotal htrans x acc h)

/-- C9: for every registry and query, `performSearch`'s ranked result list
is pairwise ordered as the spec claims: a result preceding another is a
name-match whenever the later one is (name-matches above spouse-matches);
within the same tier a later case-insensitive prefix match forces the
earlier one to be a prefix match as well; and when the prefix flags tie,
the names stand in (modelled) `localeCompare` order. -/
theorem C9_ranking (reg : List Person) (query : String) :
    (performSearchCore reg query).Pairwise (fun a b =>
      (b.matchReason = .name → a.matchReason = .name) ∧
      (a.matchReason = b.matchReason →
        (ciStartsWith b.person.name query = true →
          ciStartsWith a.person.name query = true) ∧
        (ciStartsWith a.person.name query = ciStartsWith b.person.name query →
          localeCmp a.person.name b.person.name ≠ .gt))) := by
  have htotal : ∀ a b : SearchMatch,
      decide (searchCmp query a b ≠ .gt) = false →
        decide (searchCmp query b a ≠ .gt) = true := by
    intro a b h
    have hg : searchCmp query a b = .gt := not_not.mp (of_decide_eq_false h)
    refine decide_eq_true ?_
    rw [searchCmp_swap, hg]
    simp [Ordering.swap]
  have htrans : ∀ a b c : SearchMatch,
      decide (searchCmp query a b ≠ .gt) = true →
        decide (searchCmp query b c ≠ .gt) = true →
          decide (searchCmp query a c ≠ .gt) = true := by
    intro a b c h1 h2
    exact decide_eq_true
      (searchCmp_le_trans query a b c (of_decide_eq_true h1) (of_decide_eq_true h2))
  have hsorted := jsSort_pairwise (fun a b => decide (searchCmp query a b ≠ .gt))
    htotal htrans (buildMatches reg query)
  have himp : ∀ a b : SearchMatch, decide (searchCmp query a b ≠ .gt) = true →
      ((b.matchReason = .name → a.matchReason = .name) ∧
       (a.matchReason = b.matchReason →
         (ciStartsWith b.person.name query = true →
           ciStartsWith a.person.name query = true) ∧
         (ciStartsWith a.person.name query = ciStartsWith b.person.name query →
           localeCmp a.person.name b.person.name ≠ .gt))) := by
    intro a b h
    have hab := (searchCmp_ne_gt_iff query a b).mp (of_decide_eq_true h)
    constructor
    · intro hbn
      rcases hab with ⟨han, hbs⟩ | ⟨hre, _⟩
      · rw [hbn] at hbs
        exact absurd hbs (by simp)
      · rw [hre, hbn]
    · intro hre
      rcases hab with ⟨han, hbs⟩ | ⟨_, hflags⟩
      · rw [han, hbs] at hre
        exact absurd hre (by simp)
      · rcases hflags with ⟨haT, hbF⟩ | ⟨hfe, hloc⟩
        · constructor
          · intro hbT
            rw [hbF] at hbT
            exact absurd hbT (by simp)
          · intro hfe
            rw [haT, hbF] at hfe
            exact absurd hfe (by simp)
        · exact ⟨fun hbT => hfe.trans hbT, fun _ => hloc⟩
  exact (hsorted.imp (fun {a b} h => himp a b h)).sublist (List.take_sublist _ _)

end FamTree
